import Mathlib

/-!
# Verification of the photo_pipe culling core

A shallow embedding of the `photo_cull` package (config.py, rating.py,
analyzer.py, faces.py, ai_analyzer.py, duplicates.py, series.py, cull.py).
Python floats are modelled as exact rationals; external effects (image
decoding, the face-landmark model, the HTTP vision endpoint, EXIF reading)
are modelled as explicit oracle arguments, mirroring the branch structure of
the source.  Sets and dicts that the source iterates in insertion order are
modelled as lists preserving that order.
-/

namespace PhotoPipe

/-! ## config.py -/

def SHARPNESS_TERRIBLE : ℚ := 50

def SHARPNESS_LOW : ℚ := 200

def SHARPNESS_HIGH : ℚ := 800

def BRIGHTNESS_IDEAL_LOW : ℚ := 100

def BRIGHTNESS_IDEAL_HIGH : ℚ := 180

def EAR_CLOSED_THRESHOLD : ℚ := 0.20

def DHASH_SIZE : ℕ := 8

def DHASH_THRESHOLD : ℕ := 10

def SERIES_GAP_SECONDS : ℚ := 3.0

def WEIGHT_SHARPNESS : ℚ := 0.35

def WEIGHT_EXPOSURE : ℚ := 0.20

def WEIGHT_FACES : ℚ := 0.25

def WEIGHT_UNIQUENESS : ℚ := 0.10

def WEIGHT_SERIES : ℚ := 0.10

def AI_WEIGHT_SHARPNESS : ℚ := 0.25

def AI_WEIGHT_EXPOSURE : ℚ := 0.15

def AI_WEIGHT_FACES : ℚ := 0.20

def AI_WEIGHT_COMPOSITION : ℚ := 0.20

def AI_WEIGHT_UNIQUENESS : ℚ := 0.10

def AI_WEIGHT_SERIES : ℚ := 0.10

def RATING_THRESHOLD_2 : ℚ := 0.35

def RATING_THRESHOLD_3 : ℚ := 0.55

def RATING_THRESHOLD_4 : ℚ := 0.80

def HARD_RULE_5_MIN_SCORE : ℚ := 0.85

def FACES_NEUTRAL_SCORE : ℚ := 0.7

/-- The `PhotoInfo` dataclass of config.py, with every field at its dataclass
default.  `path` has no default in the source (it is always supplied at
construction); the embedding defaults it to `""` so that a fully-defaulted
record exists.  The `dhash` hex string is represented by the natural number it
denotes (`none` models the empty string, which is falsy in Python); the
timestamp is represented as seconds (ℚ), `none` modelling Python `None`. -/
structure PhotoInfo where
  path : String := ""
  jpeg_path : Option String := none
  raf_path : Option String := none
  stem : String := ""
  sharpness : ℚ := 0
  brightness : ℚ := 0
  exposure_score : ℚ := 0
  sharpness_score : ℚ := 0
  face_count : ℕ := 0
  eyes_open_ratio : ℚ := 0
  all_eyes_closed : Bool := false
  face_score : ℚ := FACES_NEUTRAL_SCORE
  dhash : Option ℕ := none
  duplicate_group : ℤ := -1
  is_worst_duplicate : Bool := false
  uniqueness_score : ℚ := 1.0
  timestamp : Option ℚ := none
  series_group : ℤ := -1
  is_best_in_series : Bool := false
  series_score : ℚ := 0.5
  ai_score : ℚ := 0
  composite_score : ℚ := 0
  rating : ℕ := 3
  rating_reason : String := ""
deriving DecidableEq, Repr

instance : Inhabited PhotoInfo := ⟨{}⟩

/-! ## rating.py -/

def compute_composite_score (photo : PhotoInfo) : ℚ :=
  WEIGHT_SHARPNESS * photo.sharpness_score
    + WEIGHT_EXPOSURE * photo.exposure_score
    + WEIGHT_FACES * photo.face_score
    + WEIGHT_UNIQUENESS * photo.uniqueness_score
    + WEIGHT_SERIES * photo.series_score

def compute_composite_score_ai (photo : PhotoInfo) : ℚ :=
  AI_WEIGHT_SHARPNESS * photo.sharpness_score
    + AI_WEIGHT_EXPOSURE * photo.exposure_score
    + AI_WEIGHT_FACES * photo.face_score
    + AI_WEIGHT_COMPOSITION * photo.ai_score
    + AI_WEIGHT_UNIQUENESS * photo.uniqueness_score
    + AI_WEIGHT_SERIES * photo.series_score

/-- Rendering of a score used in the soft-rule reason strings.  The source
formats the float with `%.2f`; the embedding renders the exact rational
(numerator/denominator), an abstraction the claims never inspect. -/
def fmtScore (q : ℚ) : String := toString q.num ++ "/" ++ toString q.den

def softReasonLt (score thr : ℚ) : String :=
  "soft: score " ++ fmtScore score ++ " < " ++ fmtScore thr

def softReasonGe (score thr : ℚ) : String :=
  "soft: score " ++ fmtScore score ++ " >= " ++ fmtScore thr

def apply_rating (photo : PhotoInfo) (ai_mode : Bool) : PhotoInfo :=
  let p : PhotoInfo :=
    { photo with composite_score :=
        if ai_mode then compute_composite_score_ai photo
        else compute_composite_score photo }
  if p.sharpness < SHARPNESS_TERRIBLE then
    { p with rating := 1, rating_reason := "hard: low sharpness" }
  else if p.all_eyes_closed ∧ ¬ ai_mode then
    { p with rating := 1, rating_reason := "hard: all eyes closed" }
  else if p.is_worst_duplicate then
    { p with rating := 1, rating_reason := "hard: worst duplicate" }
  else if p.is_best_in_series ∧ 0 < p.face_count ∧ ¬ p.all_eyes_closed
      ∧ HARD_RULE_5_MIN_SCORE ≤ p.composite_score then
    { p with rating := 5,
             rating_reason := "hard: best in series + faces + eyes open + high score" }
  else if p.composite_score < RATING_THRESHOLD_2 then
    { p with rating := 2, rating_reason := softReasonLt p.composite_score RATING_THRESHOLD_2 }
  else if p.composite_score < RATING_THRESHOLD_3 then
    { p with rating := 3, rating_reason := softReasonLt p.composite_score RATING_THRESHOLD_3 }
  else if p.composite_score < RATING_THRESHOLD_4 then
    { p with rating := 4, rating_reason := softReasonLt p.composite_score RATING_THRESHOLD_4 }
  else
    { p with rating := 5, rating_reason := softReasonGe p.composite_score RATING_THRESHOLD_4 }

def rate_photos (photos : List PhotoInfo) (ai_mode : Bool) : List PhotoInfo :=
  photos.map (fun photo => apply_rating photo ai_mode)

/-! ## analyzer.py -/

def normalize_sharpness (sharpness : ℚ) : ℚ :=
  if sharpness < SHARPNESS_TERRIBLE then 0
  else if sharpness < SHARPNESS_LOW then
    (sharpness - SHARPNESS_TERRIBLE) / (SHARPNESS_LOW - SHARPNESS_TERRIBLE) * 0.5
  else if sharpness < SHARPNESS_HIGH then
    0.5 + (sharpness - SHARPNESS_LOW) / (SHARPNESS_HIGH - SHARPNESS_LOW) * 0.5
  else 1

def score_exposure (brightness : ℚ) : ℚ :=
  if BRIGHTNESS_IDEAL_LOW ≤ brightness ∧ brightness ≤ BRIGHTNESS_IDEAL_HIGH then 1
  else if brightness < BRIGHTNESS_IDEAL_LOW then
    max 0 (brightness / BRIGHTNESS_IDEAL_LOW)
  else
    max 0 ((255 - brightness) / (255 - BRIGHTNESS_IDEAL_HIGH))

/-! ## faces.py -/

def compute_face_score (face_count : ℕ) ( eyes_open_ratio : ℚ) : ℚ :=
  if face_count = 0 then FACES_NEUTRAL_SCORE else eyes_open_ratio

/-! ## cull.py: analyze_photo

The OpenCV / MediaPipe measurements of the decoded image are external; the
embedding packages the values they would produce as an oracle.  `faces = none`
models `detect_faces` raising (the `except` branch leaving the face fields
untouched), and `dhashVal = none` models `compute_dhash` raising. -/

structure ImageMeasurements where
  sharpness : ℚ
  brightness : ℚ
  faces : Option (ℕ × ℚ × Bool)
  dhashVal : Option (Option ℕ)

def analyze_photo (photo : PhotoInfo) (image : Option ImageMeasurements)
    (exif_ts : Option ℚ) : PhotoInfo :=
  match image with
  | none => photo
  | some im =>
    let p : PhotoInfo :=
      { photo with
          sharpness := im.sharpness
          sharpness_score := normalize_sharpness im.sharpness
          brightness := im.brightness
          exposure_score := score_exposure im.brightness }
    let p : PhotoInfo :=
      match im.faces with
      | none => p
      | some (fc, ratio, closed) =>
        { p with
            face_count := fc
            eyes_open_ratio := ratio
            all_eyes_closed := closed
            face_score := compute_face_score fc ratio }
    let p : PhotoInfo :=
      match im.dhashVal with
      | none => p
      | some h => { p with dhash := h }
    { p with timestamp := exif_ts }

/-! ## ai_analyzer.py: analyze_photo_ai

The base64 encoding, HTTP request and JSON parsing are external; the embedding
distinguishes the source's four failure paths (unreadable image, failed
request, unparseable response body, no JSON object in the content) from a
successfully parsed response, which carries the six fields after
`_parse_response` has backfilled defaults. -/

structure AiData where
  sharpness : ℚ
  exposure : ℚ
  face_quality : ℚ
  face_count : ℕ
  eyes_closed : Bool
  composition : ℚ

inductive AiOutcome where
  | encodeFail
  | requestFail
  | bodyParseFail
  | contentUnparseable
  | parsed (d : AiData)

def analyze_photo_ai (photo : PhotoInfo) (outcome : AiOutcome) : PhotoInfo :=
  match outcome with
  | .encodeFail => photo
  | .requestFail => photo
  | .bodyParseFail => photo
  | .contentUnparseable => photo
  | .parsed d =>
    { photo with
        sharpness_score := d.sharpness
        exposure_score := d.exposure
        face_score := d.face_quality
        face_count := d.face_count
        all_eyes_closed := d.eyes_closed
        ai_score := d.composition
        sharpness := d.sharpness * 1000.0 }

/-! ## duplicates.py -/

/-- Number of set bits, as counted by the source's `bin(v1 ^ v2).count("1")`.
Structural recursion on a fuel argument (the value itself bounds the number of
halving steps), so that the kernel can evaluate it. -/
def popCountAux : ℕ → ℕ → ℕ
  | 0, _ => 0
  | fuel + 1, n => if n = 0 then 0 else n % 2 + popCountAux fuel (n / 2)

def popCount (n : ℕ) : ℕ := popCountAux n n

def hamming_distance (hash1 hash2 : ℕ) : ℕ := popCount (hash1 ^^^ hash2)

structure UnionFind where
  parent : List ℕ
  rank : List ℕ

def UnionFind.init (n : ℕ) : UnionFind := ⟨List.range n, List.replicate n 0⟩

def parentOf (parent : List ℕ) (x : ℕ) : ℕ := parent.getD x x

def findAux (parent : List ℕ) : ℕ → ℕ → ℕ
  | 0, x => x
  | fuel + 1, x => if parentOf parent x = x then x else findAux parent fuel (parentOf parent x)

/-- The source's `find` follows parent links to the root, compressing the path
as it returns (`self.parent[x] = self.find(self.parent[x])`).  Compression
rewrites parent entries to point directly at the root of their chain; it
changes neither the returned root nor which elements share a root, so the
embedding follows parent links without the rewrite.  The array length serves
as fuel: under the union-find invariants proved below, every chain reaches its
root in at most `parent.length` steps. -/
def UnionFind.find (uf : UnionFind) (x : ℕ) : ℕ :=
  findAux uf.parent uf.parent.length x

def UnionFind.union (uf : UnionFind) (x y : ℕ) : UnionFind :=
  let rx := uf.find x
  let ry := uf.find y
  if rx = ry then uf
  else
    let rk : ℕ → ℕ := fun z => uf.rank.getD z 0
    let p : ℕ × ℕ := if rk rx < rk ry then (ry, rx) else (rx, ry)
    let parent := uf.parent.set p.2 p.1
    let rank := if rk p.1 = rk p.2 then uf.rank.set p.1 (rk p.1 + 1) else uf.rank
    ⟨parent, rank⟩

def dhashOf (photos : List PhotoInfo) (i : ℕ) : Option ℕ := (photos.getD i default).dhash

def sharpnessOf (photos : List PhotoInfo) (i : ℕ) : ℚ := (photos.getD i default).sharpness

/-- Indices of the photos with a non-empty dhash, in order
(`[(i, p) for i, p in enumerate(photos) if p.dhash]`, keeping indices). -/
def validIdx (photos : List PhotoInfo) : List ℕ :=
  (List.range photos.length).filter (fun i => (dhashOf photos i).isSome)

/-- Hamming distance between the dhashes of photos `a` and `b`. -/
def hammingOf (photos : List PhotoInfo) (a b : ℕ) : ℕ :=
  hamming_distance ((dhashOf photos a).getD 0) ((dhashOf photos b).getD 0)

/-- The all-pairs union loop (`for a ...: for b in range(a+1, ...)`). -/
def unionPairs (photos : List PhotoInfo) : UnionFind → List ℕ → UnionFind
  | uf, [] => uf
  | uf, a :: rest =>
    let uf' := rest.foldl
      (fun uf b => if hammingOf photos a b ≤ DHASH_THRESHOLD then uf.union a b else uf) uf
    unionPairs photos uf' rest

/-- `groups.setdefault(root, []).append(i)`: Python dicts preserve insertion
order, modelled as an association list. -/
def addToGroups (gs : List (ℕ × List ℕ)) (root i : ℕ) : List (ℕ × List ℕ) :=
  match gs with
  | [] => [(root, [i])]
  | (r, ms) :: rest =>
    if r = root then (r, ms ++ [i]) :: rest else (r, ms) :: addToGroups rest root i

def collectGroups (uf : UnionFind) (n : ℕ) : List (ℕ × List ℕ) :=
  (List.range n).foldl (fun gs i => addToGroups gs (uf.find i) i) []

/-- In-place update of `photos[i]`, as a functional list update. -/
def modifyIdx {α : Type} : List α → ℕ → (α → α) → List α
  | [], _, _ => []
  | p :: ps, 0, f => f p :: ps
  | p :: ps, i + 1, f => p :: modifyIdx ps i f

/-- `min(members, key=lambda i: photos[i].sharpness)`: Python `min` returns the
first element attaining the minimal key.  (`min` of an empty list raises; the
`0` branch is unreachable in context.) -/
def argminSharp (photos : List PhotoInfo) : List ℕ → ℕ
  | [] => 0
  | m :: ms =>
    ms.foldl (fun best i => if sharpnessOf photos i < sharpnessOf photos best then i else best) m

def assignGroup (st : List PhotoInfo × ℕ) (g : ℕ × List ℕ) : List PhotoInfo × ℕ :=
  if g.2.length < 2 then st
  else
    let ps := g.2.foldl
      (fun ps idx => modifyIdx ps idx (fun p => { p with duplicate_group := (st.2 : ℤ) })) st.1
    let worst := argminSharp ps g.2
    (modifyIdx ps worst (fun p => { p with is_worst_duplicate := true, uniqueness_score := 0.3 }),
     st.2 + 1)

def find_duplicate_groups (photos : List PhotoInfo) : List PhotoInfo :=
  if photos.length < 2 then photos
  else if (validIdx photos).length < 2 then photos
  else
    let uf := unionPairs photos (UnionFind.init photos.length) (validIdx photos)
    let groups := collectGroups uf photos.length
    (groups.foldl assignGroup (photos, 0)).1

/-! ## series.py -/

def tsOf (photos : List PhotoInfo) (i : ℕ) : Option ℚ := (photos.getD i default).timestamp

def tsVal (photos : List PhotoInfo) (i : ℕ) : ℚ := (tsOf photos i).getD 0

/-- Indices of the photos with a timestamp, in order. -/
def timedIdx (photos : List PhotoInfo) : List ℕ :=
  (List.range photos.length).filter (fun i => (tsOf photos i).isSome)

/-- `timed.sort(key=lambda x: x[1].timestamp)`: a stable sort by timestamp.
Python's sort is stable; `insertionSort` by `≤` on the key is the stable sort
of the same list, hence the same function. -/
def sortedTimed (photos : List PhotoInfo) : List ℕ :=
  (timedIdx photos).insertionSort (fun a b => tsVal photos a ≤ tsVal photos b)

/-- The run-building loop: extend the current run while the gap to the
previous photo is `≤ SERIES_GAP_SECONDS`, emit runs of length ≥ 2. -/
def seriesLoop (photos : List PhotoInfo) :
    ℕ → List ℕ → List ℕ → List (List ℕ) → List (List ℕ)
  | _, [], cur, acc => if 2 ≤ cur.length then acc ++ [cur] else acc
  | prev, c :: rest, cur, acc =>
    if tsVal photos c - tsVal photos prev ≤ SERIES_GAP_SECONDS then
      seriesLoop photos c rest (cur ++ [c]) acc
    else
      seriesLoop photos c rest [c] (if 2 ≤ cur.length then acc ++ [cur] else acc)

def buildSeries (photos : List PhotoInfo) : List (List ℕ) :=
  match sortedTimed photos with
  | [] => []
  | s0 :: rest => seriesLoop photos s0 rest [s0] []

/-- `max(members, key=lambda i: photos[i].sharpness)`: Python `max` returns the
first element attaining the maximal key. -/
def argmaxSharp (photos : List PhotoInfo) : List ℕ → ℕ
  | [] => 0
  | m :: ms =>
    ms.foldl (fun best i => if sharpnessOf photos best < sharpnessOf photos i then i else best) m

def assignSeries (st : List PhotoInfo × ℤ) (members : List ℕ) : List PhotoInfo × ℤ :=
  let ps := members.foldl
    (fun ps idx => modifyIdx ps idx (fun p => { p with series_group := st.2, series_score := 0.3 }))
    st.1
  let best := argmaxSharp ps members
  (modifyIdx ps best (fun p => { p with is_best_in_series := true, series_score := 1.0 }),
   st.2 + 1)

def group_into_series (photos : List PhotoInfo) : List PhotoInfo :=
  if (timedIdx photos).length < 2 then photos
  else ((buildSeries photos).foldl assignSeries (photos, 0)).1

/-! ## Spec-side definitions

`softBandSpec` restates the soft rating bands in the spec's words
(`<0.35→2, <0.55→3, <0.80→4, else→5`), to be compared with `apply_rating`. -/

def softBandSpec (s : ℚ) : ℕ :=
  if s < 0.35 then 2 else if s < 0.55 then 3 else if s < 0.80 then 4 else 5

/-- The composite score `apply_rating` computes for the given mode. -/
def compositeFor (photo : PhotoInfo) (ai_mode : Bool) : ℚ :=
  if ai_mode then compute_composite_score_ai photo else compute_composite_score photo

/-! ### Union-find reasoning infrastructure (claim C4)

`iterP` iterates the parent map; `isRootP` marks fixpoints; `UFInv` is the
union-by-rank forest invariant (in-range entries, and the rank strictly
increases along parent links), under which every chain reaches its root
within `n` steps, so `UnionFind.find`'s fuel suffices. -/

def iterP (parent : List ℕ) : ℕ → ℕ → ℕ
  | 0, x => x
  | k + 1, x => iterP parent k (parentOf parent x)

def isRootP (parent : List ℕ) (x : ℕ) : Prop := parentOf parent x = x

def UFInv (n : ℕ) (uf : UnionFind) : Prop :=
  uf.parent.length = n ∧ uf.rank.length = n ∧
  (∀ x, x < n → parentOf uf.parent x < n) ∧
  (∀ x, x < n → parentOf uf.parent x ≠ x →
    uf.rank.getD x 0 < uf.rank.getD (parentOf uf.parent x) 0)

/-- The canonical root of `x`: `n` parent steps (enough under `UFInv`). -/
def rootN (parent : List ℕ) (n : ℕ) (x : ℕ) : ℕ := iterP parent n x

/-- Number of clusters of size ≥ 2 (used to describe the group ids the
assignment loop hands out). -/
def countBig (gs : List (ℕ × List ℕ)) : ℕ :=
  (gs.filter (fun g => 2 ≤ g.2.length)).length

/-- The property claim C4 states of `find_duplicate_groups` (with `out` the
result): photos within the Hamming threshold of a common photo all land in
one cluster with a common non-negative id (transitive clustering); each
assigned cluster has at least two members and exactly its first
lowest-sharpness member is marked worst with uniqueness 0.3 while the rest
keep 1.0; photos with an empty dhash, or with no valid photo within the
threshold, keep duplicate_group −1 and are untouched. -/
def DupSpec (photos out : List PhotoInfo) : Prop :=
  (∀ i j k, i < photos.length → j < photos.length → k < photos.length →
    i ≠ j → j ≠ k →
    dhashOf photos i ≠ none → dhashOf photos j ≠ none → dhashOf photos k ≠ none →
    hammingOf photos i j ≤ DHASH_THRESHOLD →
    hammingOf photos j k ≤ DHASH_THRESHOLD →
    ∃ m : ℕ, (out.getD i default).duplicate_group = (m : ℤ) ∧
      (out.getD j default).duplicate_group = (m : ℤ) ∧
      (out.getD k default).duplicate_group = (m : ℤ)) ∧
  (∀ i, i < photos.length → 0 ≤ (out.getD i default).duplicate_group →
    (∃ j, j < photos.length ∧ j ≠ i ∧
      (out.getD j default).duplicate_group = (out.getD i default).duplicate_group) ∧
    (out.getD i default).uniqueness_score =
      (if (out.getD i default).is_worst_duplicate then 0.3 else 1.0) ∧
    ((out.getD i default).is_worst_duplicate = true ↔
      ∀ j, j < photos.length →
        (out.getD j default).duplicate_group = (out.getD i default).duplicate_group →
        sharpnessOf photos i ≤ sharpnessOf photos j ∧
          (sharpnessOf photos i = sharpnessOf photos j → i ≤ j))) ∧
  (∀ i, i < photos.length →
    (dhashOf photos i = none ∨
      ∀ j, j < photos.length → j ≠ i → dhashOf photos j ≠ none →
        ¬ hammingOf photos i j ≤ DHASH_THRESHOLD) →
    out.getD i default = photos.getD i default ∧
      (out.getD i default).duplicate_group = -1)

/-- A direct structural-recursive description of the run splitting that
`seriesLoop` performs: split the (timestamp-sorted, still unfiltered) index
list at gaps strictly greater than `SERIES_GAP_SECONDS`.  `buildSeries` is
proved equal to these chunks filtered to length ≥ 2. -/
def chunkRuns (photos : List PhotoInfo) : List ℕ → List (List ℕ)
  | [] => []
  | [a] => [[a]]
  | a :: b :: rest =>
    if tsVal photos b - tsVal photos a ≤ SERIES_GAP_SECONDS then
      match chunkRuns photos (b :: rest) with
      | [] => [[a]]
      | run :: srest => (a :: run) :: srest
    else [a] :: chunkRuns photos (b :: rest)

/-- The property claim C5 states of `group_into_series` (with `out` the
result): untimed photos are untouched; two timed photos within the gap
threshold of each other land in one emitted run with a common non-negative
id; a group's time span contains no gap longer than the threshold; each
emitted group has at least two members, its members score 0.3 except the
unique best one (highest sharpness, earliest on an exact tie) which is
flagged and scores 1.0; photos in no qualifying run are untouched and keep
series_group −1. -/
def SeriesSpec (photos out : List PhotoInfo) : Prop :=
  (∀ i, i < photos.length → tsOf photos i = none →
    out.getD i default = photos.getD i default) ∧
  (∀ i j, i < photos.length → j < photos.length → i ≠ j →
    tsOf photos i ≠ none → tsOf photos j ≠ none →
    |tsVal photos j - tsVal photos i| ≤ SERIES_GAP_SECONDS →
    ∃ m : ℕ, (out.getD i default).series_group = (m : ℤ) ∧
      (out.getD j default).series_group = (m : ℤ)) ∧
  (∀ i j, i < photos.length → j < photos.length →
    tsOf photos i ≠ none → tsOf photos j ≠ none →
    0 ≤ (out.getD i default).series_group →
    (out.getD i default).series_group = (out.getD j default).series_group →
    tsVal photos i ≤ tsVal photos j →
    ∀ u : ℚ, tsVal photos i ≤ u → u < tsVal photos j →
      ∃ k, k < photos.length ∧ tsOf photos k ≠ none ∧
        u < tsVal photos k ∧ tsVal photos k ≤ u + SERIES_GAP_SECONDS) ∧
  (∀ i, i < photos.length → 0 ≤ (out.getD i default).series_group →
    (∃ j, j < photos.length ∧ j ≠ i ∧
      (out.getD j default).series_group = (out.getD i default).series_group) ∧
    (out.getD i default).series_score =
      (if (out.getD i default).is_best_in_series then 1.0 else 0.3) ∧
    ((out.getD i default).is_best_in_series = true ↔
      ∀ j, j < photos.length →
        (out.getD j default).series_group = (out.getD i default).series_group →
        sharpnessOf photos j ≤ sharpnessOf photos i ∧
          (sharpnessOf photos j = sharpnessOf photos i →
            i = j ∨ tsVal photos i < tsVal photos j ∨
              (tsVal photos i = tsVal photos j ∧ i < j)))) ∧
  (∀ i, i < photos.length → (out.getD i default).series_group = -1 →
    out.getD i default = photos.getD i default) ∧
  (∀ i, i < photos.length → tsOf photos i ≠ none →
    (∀ j, j < photos.length → j ≠ i → tsOf photos j ≠ none →
      ¬ |tsVal photos j - tsVal photos i| ≤ SERIES_GAP_SECONDS) →
    out.getD i default = photos.getD i default ∧
      (out.getD i default).series_group = -1)

/-- Every field of a record except the three that `find_duplicate_groups`
writes (`duplicate_group`, `is_worst_duplicate`, `uniqueness_score`). -/
def dupFrameKey (p : PhotoInfo) :=
  (p.path, p.jpeg_path, p.raf_path, p.stem, p.sharpness, p.brightness,
   p.exposure_score, p.sharpness_score, p.face_count,
   PhotoInfo.eyes_open_ratio p, p.all_eyes_closed, p.face_score,
   p.dhash, p.timestamp, p.series_group, p.is_best_in_series, p.series_score,
   p.ai_score, p.composite_score, p.rating, p.rating_reason)

/-- Every field of a record except the three that `group_into_series`
writes (`series_group`, `is_best_in_series`, `series_score`). -/
def seriesFrameKey (p : PhotoInfo) :=
  (p.path, p.jpeg_path, p.raf_path, p.stem, p.sharpness, p.brightness,
   p.exposure_score, p.sharpness_score, p.face_count,
   PhotoInfo.eyes_open_ratio p, p.all_eyes_closed, p.face_score,
   p.dhash, p.timestamp, p.duplicate_group, p.is_worst_duplicate,
   p.uniqueness_score, p.ai_score, p.composite_score, p.rating, p.rating_reason)

/-- Pointwise agreement, outside the duplicate-grouping fields, between two
photo lists of the same length. -/
def DupFrame (ps qs : List PhotoInfo) : Prop :=
  ps.length = qs.length ∧
    ∀ i, dupFrameKey (ps.getD i default) = dupFrameKey (qs.getD i default)

/-- Pointwise agreement, outside the series-grouping fields, between two
photo lists of the same length. -/
def SeriesFrame (ps qs : List PhotoInfo) : Prop :=
  ps.length = qs.length ∧
    ∀ i, seriesFrameKey (ps.getD i default) = seriesFrameKey (qs.getD i default)

/-! ## Concrete records used by the witnesses -/

/-- A blurry record with every other signal perfect. -/
def wPhotoBlurry : PhotoInfo :=
  { sharpness := 10, sharpness_score := 1, exposure_score := 1, face_score := 1,
    uniqueness_score := 1, series_score := 1, ai_score := 1, all_eyes_closed := true,
    is_worst_duplicate := true, is_best_in_series := true, face_count := 2 }

/-- A sharp, otherwise-default record. -/
def wPhotoSharp : PhotoInfo := { sharpness := 60, sharpness_score := 1 }

/-- A sharp record with all eyes closed. -/
def wPhotoEyes : PhotoInfo := { sharpness := 60, all_eyes_closed := true }

/-- A concrete folder for the series-grouping witness: a burst at 0s, 3s, 5s
(gap of exactly 3.0 s kept inside the run), a pair at 16s and 17s, and one
photo without a timestamp. -/
def wSeriesPhotos : List PhotoInfo :=
  [{ stem := "s0", timestamp := some 0, sharpness := 10 },
   { stem := "s1", timestamp := some 3, sharpness := 30 },
   { stem := "s2", timestamp := some 5, sharpness := 20 },
   { stem := "s3", timestamp := some 16, sharpness := 1 },
   { stem := "s4" }]

/-- Duplicate photos whose dhashes are pairwise 10, 10 and 20 bits apart:
photo 0 links to 1 and 1 links to 2, but 0 and 2 exceed the threshold, so
the cluster is genuinely transitive; photo 3 has no dhash. -/
def wDupPhotos : List PhotoInfo :=
  [{ stem := "d0", dhash := some 0, sharpness := 3 },
   { stem := "d1", dhash := some 1023, sharpness := 1 },
   { stem := "d2", dhash := some 1048575, sharpness := 2 },
   { stem := "d3" }]

/-! ## Theorems -/

theorem apply_rating_low_sharpness (photo : PhotoInfo) (ai_mode : Bool)
    (h : photo.sharpness < SHARPNESS_TERRIBLE) :
    (apply_rating photo ai_mode).rating = 1 ∧
      (apply_rating photo ai_mode).rating_reason = "hard: low sharpness" := by
  unfold apply_rating
  dsimp only
  rw [if_pos h]
  exact ⟨rfl, rfl⟩

/-- C1: a raw sharpness strictly below the terrible floor (50) forces
rating 1 with reason "hard: low sharpness", for every record and in both
AI and non-AI mode, before any other rule can fire. -/
theorem c1_low_sharpness_forces_rating_one (photo : PhotoInfo) (ai_mode : Bool)
    (h : photo.sharpness < SHARPNESS_TERRIBLE) :
    (apply_rating photo ai_mode).rating = 1 ∧
      (apply_rating photo ai_mode).rating_reason = "hard: low sharpness" :=
  apply_rating_low_sharpness photo ai_mode h

theorem c1_witness :
    wPhotoBlurry.sharpness < SHARPNESS_TERRIBLE ∧
    ((apply_rating wPhotoBlurry true).rating = 1 ∧
      (apply_rating wPhotoBlurry true).rating_reason = "hard: low sharpness") :=
  ⟨by decide, c1_low_sharpness_forces_rating_one wPhotoBlurry true (by decide)⟩

/-- C2: when no hard rule fires, the rating comes from the soft bands on the
composite score (`<0.35→2, <0.55→3, <0.80→4, else→5`), and the soft bands
never produce rating 1, however low the composite score. -/
theorem c2_soft_bands (photo : PhotoInfo) (ai_mode : Bool)
    (h1 : SHARPNESS_TERRIBLE ≤ photo.sharpness)
    (h2 : photo.all_eyes_closed = true → ai_mode = true)
    (h3 : photo.is_worst_duplicate = false)
    (h4 : ¬ (photo.is_best_in_series = true ∧ 0 < photo.face_count ∧
            photo.all_eyes_closed = false ∧
            HARD_RULE_5_MIN_SCORE ≤ compositeFor photo ai_mode)) :
    (apply_rating photo ai_mode).rating = softBandSpec (compositeFor photo ai_mode) ∧
      (apply_rating photo ai_mode).rating ≠ 1 := by
  unfold apply_rating compositeFor softBandSpec RATING_THRESHOLD_2 RATING_THRESHOLD_3
    RATING_THRESHOLD_4 at *
  dsimp only
  rw [if_neg (not_lt.mpr h1)]
  have heyes : ¬ (photo.all_eyes_closed = true ∧ ¬ ai_mode = true) := by
    rintro ⟨he, hai⟩
    exact hai (h2 he)
  rw [if_neg (by simpa using heyes)]
  rw [if_neg (by simp [h3])]
  rw [if_neg (by simpa using h4)]
  split_ifs <;> simp

theorem c2_witness :
    SHARPNESS_TERRIBLE ≤ wPhotoSharp.sharpness ∧
    (wPhotoSharp.all_eyes_closed = true → false = true) ∧
    wPhotoSharp.is_worst_duplicate = false ∧
    ¬ (wPhotoSharp.is_best_in_series = true ∧ 0 < wPhotoSharp.face_count ∧
        wPhotoSharp.all_eyes_closed = false ∧
        HARD_RULE_5_MIN_SCORE ≤ compositeFor wPhotoSharp false) ∧
    ((apply_rating wPhotoSharp false).rating =
        softBandSpec (compositeFor wPhotoSharp false) ∧
      (apply_rating wPhotoSharp false).rating ≠ 1) :=
  ⟨by decide, by decide, by decide, by decide,
    c2_soft_bands wPhotoSharp false (by decide) (by decide) (by decide) (by decide)⟩

/-- C3: in AI mode the all-eyes-closed hard rule is skipped — a record with
all eyes closed, sharpness at or above the terrible floor and not the worst
duplicate never gets rating 1 — while the same record in non-AI mode gets
rating 1 with reason "hard: all eyes closed". -/
theorem c3_ai_mode_skips_eyes_closed_rule (photo : PhotoInfo)
    (heyes : photo.all_eyes_closed = true)
    (hsharp : SHARPNESS_TERRIBLE ≤ photo.sharpness)
    (hdup : photo.is_worst_duplicate = false) :
    (apply_rating photo true).rating ≠ 1 ∧
      (apply_rating photo false).rating = 1 ∧
      (apply_rating photo false).rating_reason = "hard: all eyes closed" := by
  refine ⟨?_, ?_, ?_⟩
  · unfold apply_rating
    dsimp only
    rw [if_neg (not_lt.mpr hsharp)]
    rw [if_neg (by simp)]
    rw [if_neg (by simp [hdup])]
    rw [if_neg (by simp [heyes])]
    split_ifs <;> simp
  all_goals
    unfold apply_rating
    dsimp only
    rw [if_neg (not_lt.mpr hsharp)]
    rw [if_pos (by simp [heyes])]

theorem c3_witness :
    wPhotoEyes.all_eyes_closed = true ∧
    SHARPNESS_TERRIBLE ≤ wPhotoEyes.sharpness ∧
    wPhotoEyes.is_worst_duplicate = false ∧
    ((apply_rating wPhotoEyes true).rating ≠ 1 ∧
      (apply_rating wPhotoEyes false).rating = 1 ∧
      (apply_rating wPhotoEyes false).rating_reason = "hard: all eyes closed") :=
  ⟨by decide, by decide, by decide,
    c3_ai_mode_skips_eyes_closed_rule wPhotoEyes (by decide) (by decide) (by decide)⟩

/-- C6, counterexample: on a total AI-call failure the record is returned
unchanged, so on a fresh record `face_score` is still at its dataclass default
`FACES_NEUTRAL_SCORE = 0.7`, not at the claimed all-zero default. -/
theorem c6_counterexample :
    (analyze_photo_ai {} AiOutcome.requestFail).sharpness_score = 0 ∧
    (analyze_photo_ai {} AiOutcome.requestFail).exposure_score = 0 ∧
    (analyze_photo_ai {} AiOutcome.requestFail).ai_score = 0 ∧
    (analyze_photo_ai {} AiOutcome.requestFail).face_score = 0.7 ∧
    (analyze_photo_ai {} AiOutcome.requestFail).face_score ≠ 0 := by
  refine ⟨rfl, rfl, rfl, rfl, ?_⟩
  show FACES_NEUTRAL_SCORE ≠ 0
  unfold FACES_NEUTRAL_SCORE
  norm_num

/-- C6, amended: on every total failure of the external call (unreadable
image, failed request, unparseable body, no JSON object in the content)
`analyze_photo_ai` returns the record unchanged and raises nothing; on a fresh
record this leaves `sharpness_score`, `exposure_score` and `ai_score` at their
all-zero defaults and `face_score` at its neutral default 0.7. -/
theorem c6_total_failure_returns_record_unchanged (photo : PhotoInfo) (o : AiOutcome)
    (h : ∀ d, o ≠ AiOutcome.parsed d) :
    analyze_photo_ai photo o = photo ∧
    (analyze_photo_ai {} o).sharpness_score = 0 ∧
    (analyze_photo_ai {} o).exposure_score = 0 ∧
    (analyze_photo_ai {} o).ai_score = 0 ∧
    (analyze_photo_ai {} o).face_score = FACES_NEUTRAL_SCORE := by
  cases o
  case parsed d => exact absurd rfl (h d)
  all_goals exact ⟨rfl, rfl, rfl, rfl, rfl⟩

theorem c6_witness :
    (∀ d, AiOutcome.requestFail ≠ AiOutcome.parsed d) ∧
    (analyze_photo_ai wPhotoSharp AiOutcome.requestFail = wPhotoSharp ∧
      (analyze_photo_ai {} AiOutcome.requestFail).sharpness_score = 0 ∧
      (analyze_photo_ai {} AiOutcome.requestFail).exposure_score = 0 ∧
      (analyze_photo_ai {} AiOutcome.requestFail).ai_score = 0 ∧
      (analyze_photo_ai {} AiOutcome.requestFail).face_score = FACES_NEUTRAL_SCORE) :=
  ⟨fun _ h => AiOutcome.noConfusion h,
    c6_total_failure_returns_record_unchanged wPhotoSharp AiOutcome.requestFail
      (fun _ h => AiOutcome.noConfusion h)⟩

/-- C7: `normalize_sharpness` is monotonically non-decreasing on non-negative
inputs, is 0 below 50, linear from 50 to 200 into `[0, 0.5)` with value 0.5
exactly at 200, linear from 200 to 800 into `[0.5, 1)`, and 1 from 800 on. -/
theorem c7_normalize_sharpness_piecewise :
    (∀ a b : ℚ, 0 ≤ a → a ≤ b → normalize_sharpness a ≤ normalize_sharpness b) ∧
    (∀ x : ℚ, x < 50 → normalize_sharpness x = 0) ∧
    (∀ x : ℚ, 50 ≤ x → x < 200 →
      normalize_sharpness x = (x - 50) / 150 * 0.5 ∧
        0 ≤ normalize_sharpness x ∧ normalize_sharpness x < 0.5) ∧
    normalize_sharpness 200 = 0.5 ∧
    (∀ x : ℚ, 200 ≤ x → x < 800 →
      normalize_sharpness x = 0.5 + (x - 200) / 600 * 0.5 ∧
        0.5 ≤ normalize_sharpness x ∧ normalize_sharpness x < 1) ∧
    (∀ x : ℚ, 800 ≤ x → normalize_sharpness x = 1) := by
  unfold normalize_sharpness SHARPNESS_TERRIBLE SHARPNESS_LOW SHARPNESS_HIGH
  refine ⟨?_, ?_, ?_, by norm_num, ?_, ?_⟩
  · intro a b ha hab
    split_ifs <;> linarith
  · intro x hx
    rw [if_pos hx]
  · intro x h1 h2
    rw [if_neg (not_lt.mpr h1), if_pos h2]
    refine ⟨by norm_num, by linarith, by linarith⟩
  · intro x h1 h2
    rw [if_neg (by linarith : ¬ x < 50), if_neg (not_lt.mpr h1), if_pos h2]
    refine ⟨by norm_num, by linarith, by linarith⟩
  · intro x hx
    rw [if_neg (by linarith : ¬ x < 50), if_neg (by linarith : ¬ x < 200),
      if_neg (not_lt.mpr hx)]

theorem c7_witness :
    ((0 : ℚ) ≤ 100 ∧ (100 : ℚ) ≤ 600 ∧
      normalize_sharpness 100 ≤ normalize_sharpness 600) ∧
    ((50 : ℚ) ≤ 125 ∧ (125 : ℚ) < 200 ∧
      normalize_sharpness 125 = (125 - 50) / 150 * 0.5) :=
  ⟨⟨by decide, by decide,
      c7_normalize_sharpness_piecewise.1 100 600 (by decide) (by decide)⟩,
    ⟨by decide, by decide,
      (c7_normalize_sharpness_piecewise.2.2.1 125 (by decide) (by decide)).1⟩⟩

theorem score_exposure_in_band {b : ℚ} (h1 : 100 ≤ b) (h2 : b ≤ 180) :
    score_exposure b = 1 := by
  unfold score_exposure BRIGHTNESS_IDEAL_LOW BRIGHTNESS_IDEAL_HIGH
  rw [if_pos ⟨h1, h2⟩]

theorem score_exposure_below {b : ℚ} (h0 : 0 ≤ b) (h1 : b < 100) :
    score_exposure b = b / 100 := by
  unfold score_exposure BRIGHTNESS_IDEAL_LOW BRIGHTNESS_IDEAL_HIGH
  rw [if_neg (by rintro ⟨h, -⟩; linarith), if_pos h1,
    max_eq_right (by positivity)]

theorem score_exposure_above {b : ℚ} (h1 : 180 < b) (h2 : b ≤ 255) :
    score_exposure b = (255 - b) / 75 := by
  unfold score_exposure BRIGHTNESS_IDEAL_LOW BRIGHTNESS_IDEAL_HIGH
  rw [if_neg (by rintro ⟨-, h⟩; linarith), if_neg (by linarith),
    max_eq_right (by rw [le_div_iff₀ (by norm_num)]; linarith)]
  norm_num

theorem score_exposure_nonneg (b : ℚ) : 0 ≤ score_exposure b := by
  unfold score_exposure
  split_ifs with h1 h2
  · norm_num
  · exact le_max_left 0 _
  · exact le_max_left 0 _

/-- C8: `score_exposure` is 1 on the closed band `[100, 180]`, 0 at 0 and at
255, ramps linearly (`b/100`) below the band and (`(255-b)/75`) above it, is
clamped to be non-negative, and is strictly monotone from each band edge
toward its extreme. -/
theorem c8_score_exposure_band :
    (∀ b : ℚ, 100 ≤ b → b ≤ 180 → score_exposure b = 1) ∧
    score_exposure 0 = 0 ∧
    score_exposure 255 = 0 ∧
    (∀ b : ℚ, 0 ≤ b → b < 100 → score_exposure b = b / 100) ∧
    (∀ b : ℚ, 180 < b → b ≤ 255 → score_exposure b = (255 - b) / 75) ∧
    (∀ b : ℚ, 0 ≤ score_exposure b) ∧
    (∀ a b : ℚ, 0 ≤ a → a < b → b ≤ 100 → score_exposure a < score_exposure b) ∧
    (∀ a b : ℚ, 180 ≤ a → a < b → b ≤ 255 → score_exposure b < score_exposure a) := by
  refine ⟨fun b h1 h2 => score_exposure_in_band h1 h2,
    by rw [score_exposure_below le_rfl (by norm_num)]; norm_num,
    by rw [score_exposure_above (by norm_num) le_rfl]; norm_num,
    fun b h0 h1 => score_exposure_below h0 h1,
    fun b h1 h2 => score_exposure_above h1 h2,
    score_exposure_nonneg, ?_, ?_⟩
  · intro a b ha hab hb
    rcases eq_or_lt_of_le hb with rfl | hb'
    · rw [score_exposure_in_band le_rfl (by norm_num), score_exposure_below ha hab]
      rw [div_lt_one (by norm_num)]
      linarith
    · rw [score_exposure_below ha (lt_trans hab hb'), score_exposure_below (by linarith) hb']
      linarith
  · intro a b ha hab hb
    rcases eq_or_lt_of_le ha with rfl | ha'
    · rw [score_exposure_in_band (by norm_num) le_rfl, score_exposure_above hab hb]
      rw [div_lt_one (by norm_num)]
      linarith
    · rw [score_exposure_above ha' (by linarith), score_exposure_above (by linarith) hb]
      linarith

theorem c8_witness :
    ((100 : ℚ) ≤ 140 ∧ (140 : ℚ) ≤ 180 ∧ score_exposure 140 = 1) ∧
    ((180 : ℚ) ≤ 200 ∧ (200 : ℚ) < 220 ∧ (220 : ℚ) ≤ 255 ∧
      score_exposure 220 < score_exposure 200) :=
  ⟨⟨by decide, by decide, c8_score_exposure_band.1 140 (by decide) (by decide)⟩,
    ⟨by decide, by decide, by decide,
      c8_score_exposure_band.2.2.2.2.2.2.2 200 220 (by decide) (by decide) (by decide)⟩⟩

/-- C9 (implicit): when the image fails to load, `analyze_photo` returns the
record unchanged; the dataclass default sharpness 0 is below the terrible
floor 50, so in non-AI mode such a fresh record is rated 1 with reason
"hard: low sharpness" — and any record with sharpness below the floor is
rated 1 regardless of its grouping flags, not given a neutral middle
rating. -/
theorem c9_unloadable_photo_rated_one :
    (∀ (photo : PhotoInfo) (ts : Option ℚ), analyze_photo photo none ts = photo) ∧
    (PhotoInfo.sharpness {} = 0 ∧ (0 : ℚ) < SHARPNESS_TERRIBLE) ∧
    ((apply_rating (analyze_photo {} none none) false).rating = 1 ∧
      (apply_rating (analyze_photo {} none none) false).rating_reason =
        "hard: low sharpness") ∧
    (∀ photo : PhotoInfo, photo.sharpness < SHARPNESS_TERRIBLE →
      (apply_rating photo false).rating = 1 ∧
        (apply_rating photo false).rating_reason = "hard: low sharpness") := by
  refine ⟨fun _ _ => rfl, ⟨rfl, by decide⟩, ⟨by decide, by decide⟩,
    fun photo h => apply_rating_low_sharpness photo false h⟩

theorem c9_witness :
    PhotoInfo.sharpness {} < SHARPNESS_TERRIBLE ∧
    ((apply_rating {} false).rating = 1 ∧
      (apply_rating {} false).rating_reason = "hard: low sharpness") :=
  ⟨by decide, c9_unloadable_photo_rated_one.2.2.2 {} (by decide)⟩

/-! ### List-update lemmas -/

theorem modifyIdx_length {α : Type} (l : List α) (i : ℕ) (f : α → α) :
    (modifyIdx l i f).length = l.length := by
  induction l generalizing i with
  | nil => rfl
  | cons a l ih =>
    cases i with
    | zero => rfl
    | succ i => simpa [modifyIdx] using ih i

theorem modifyIdx_of_le {α : Type} (l : List α) (i : ℕ) (f : α → α)
    (h : l.length ≤ i) : modifyIdx l i f = l := by
  induction l generalizing i with
  | nil => rfl
  | cons a l ih =>
    cases i with
    | zero => exact absurd h (by simp)
    | succ i => simpa [modifyIdx] using ih i (by simpa using h)

theorem getD_modifyIdx_ne {α : Type} (l : List α) (i : ℕ) (f : α → α) (j : ℕ) (d : α)
    (h : j ≠ i) : (modifyIdx l i f).getD j d = l.getD j d := by
  induction l generalizing i j with
  | nil => rfl
  | cons a l ih =>
    cases i with
    | zero =>
      cases j with
      | zero => exact absurd rfl h
      | succ j => simp [modifyIdx]
    | succ i =>
      cases j with
      | zero => simp [modifyIdx]
      | succ j => simpa [modifyIdx] using ih i j (by omega)

theorem getD_modifyIdx_self {α : Type} (l : List α) (i : ℕ) (f : α → α) (d : α)
    (h : i < l.length) : (modifyIdx l i f).getD i d = f (l.getD i d) := by
  induction l generalizing i with
  | nil => exact absurd h (by simp)
  | cons a l ih =>
    cases i with
    | zero => simp [modifyIdx]
    | succ i => simpa [modifyIdx] using ih i (by simpa using h)

/-- Folding a step that is related to its input produces a state related to
the initial one, for any reflexive transitive relation. -/
theorem foldl_rel {α β : Type} {R : α → α → Prop} (hrefl : ∀ a, R a a)
    (htrans : ∀ {a b c}, R a b → R b c → R a c) (g : α → β → α)
    (hg : ∀ a b, R (g a b) a) : ∀ (l : List β) (a : α), R (l.foldl g a) a := by
  intro l
  induction l with
  | nil => exact hrefl
  | cons b l ih => exact fun a => htrans (ih (g a b)) (hg a b)

/-! ### Frame lemmas (claim C10) -/

theorem dupFrameRefl (ps : List PhotoInfo) : DupFrame ps ps :=
  ⟨Eq.refl _, fun _ => Eq.refl _⟩

theorem dupFrameTrans {ps qs rs : List PhotoInfo} (h1 : DupFrame ps qs)
    (h2 : DupFrame qs rs) : DupFrame ps rs :=
  ⟨h1.1.trans h2.1, fun i => (h1.2 i).trans (h2.2 i)⟩

theorem seriesFrameRefl (ps : List PhotoInfo) : SeriesFrame ps ps :=
  ⟨Eq.refl _, fun _ => Eq.refl _⟩

theorem seriesFrameTrans {ps qs rs : List PhotoInfo} (h1 : SeriesFrame ps qs)
    (h2 : SeriesFrame qs rs) : SeriesFrame ps rs :=
  ⟨h1.1.trans h2.1, fun i => (h1.2 i).trans (h2.2 i)⟩

theorem dupFrame_modifyIdx (ps : List PhotoInfo) (i : ℕ) (f : PhotoInfo → PhotoInfo)
    (hf : ∀ p, dupFrameKey (f p) = dupFrameKey p) :
    DupFrame (PhotoPipe.modifyIdx ps i f) ps := by
  refine ⟨modifyIdx_length ps i f, fun j => ?_⟩
  by_cases hj : j = i
  · subst hj
    by_cases hlt : j < ps.length
    · rw [getD_modifyIdx_self ps j f default hlt]
      exact hf _
    · rw [modifyIdx_of_le ps j f (le_of_not_lt hlt)]
  · rw [getD_modifyIdx_ne ps i f j default hj]

theorem seriesFrame_modifyIdx (ps : List PhotoInfo) (i : ℕ) (f : PhotoInfo → PhotoInfo)
    (hf : ∀ p, seriesFrameKey (f p) = seriesFrameKey p) :
    SeriesFrame (PhotoPipe.modifyIdx ps i f) ps := by
  refine ⟨modifyIdx_length ps i f, fun j => ?_⟩
  by_cases hj : j = i
  · subst hj
    by_cases hlt : j < ps.length
    · rw [getD_modifyIdx_self ps j f default hlt]
      exact hf _
    · rw [modifyIdx_of_le ps j f (le_of_not_lt hlt)]
  · rw [getD_modifyIdx_ne ps i f j default hj]

theorem DupFrame_assignGroup (st : List PhotoInfo × ℕ) (g : ℕ × List ℕ) :
    DupFrame (assignGroup st g).1 st.1 := by
  unfold assignGroup
  by_cases h : g.2.length < 2
  · rw [if_pos h]
    exact dupFrameRefl st.1
  · rw [if_neg h]
    exact dupFrameTrans
      (dupFrame_modifyIdx _ _ _ (fun p => Eq.refl _))
      (foldl_rel dupFrameRefl dupFrameTrans
        (fun ps idx => modifyIdx ps idx (fun p => { p with duplicate_group := (st.2 : ℤ) }))
        (fun ps idx => dupFrame_modifyIdx ps idx _ (fun p => Eq.refl _)) g.2 st.1)

theorem DupFrame_find_duplicate_groups (photos : List PhotoInfo) :
    DupFrame (find_duplicate_groups photos) photos := by
  unfold find_duplicate_groups
  split_ifs
  · exact dupFrameRefl photos
  · exact dupFrameRefl photos
  · exact foldl_rel (R := fun a b : List PhotoInfo × ℕ => DupFrame a.1 b.1)
      (fun a => dupFrameRefl a.1) (fun h1 h2 => dupFrameTrans h1 h2)
      assignGroup DupFrame_assignGroup _ (photos, 0)

theorem SeriesFrame_assignSeries (st : List PhotoInfo × ℤ) (members : List ℕ) :
    SeriesFrame (assignSeries st members).1 st.1 := by
  unfold assignSeries
  exact seriesFrameTrans
    (seriesFrame_modifyIdx _ _ _ (fun p => Eq.refl _))
    (foldl_rel seriesFrameRefl seriesFrameTrans
      (fun ps idx =>
        modifyIdx ps idx (fun p => { p with series_group := st.2, series_score := 0.3 }))
      (fun ps idx => seriesFrame_modifyIdx ps idx _ (fun p => Eq.refl _)) members st.1)

theorem SeriesFrame_group_into_series (photos : List PhotoInfo) :
    SeriesFrame (group_into_series photos) photos := by
  unfold group_into_series
  split_ifs
  · exact seriesFrameRefl photos
  · exact foldl_rel (R := fun a b : List PhotoInfo × ℤ => SeriesFrame a.1 b.1)
      (fun a => seriesFrameRefl a.1) (fun h1 h2 => seriesFrameTrans h1 h2)
      assignSeries SeriesFrame_assignSeries _ (photos, 0)

/-- C10 (frame property): `find_duplicate_groups` writes only
`duplicate_group`, `is_worst_duplicate` and `uniqueness_score`, and
`group_into_series` writes only `series_group`, `is_best_in_series` and
`series_score`; each operation leaves every other field of every record
unchanged and neither adds nor removes records. -/
theorem c10_grouping_frame (photos : List PhotoInfo) :
    DupFrame (find_duplicate_groups photos) photos ∧
      SeriesFrame (group_into_series photos) photos :=
  ⟨DupFrame_find_duplicate_groups photos, SeriesFrame_group_into_series photos⟩

/-! ### Series grouping: the sorted timed-index list (claim C5) -/

theorem mem_timedIdx (photos : List PhotoInfo) (i : ℕ) :
    i ∈ timedIdx photos ↔ i < photos.length ∧ tsOf photos i ≠ none := by
  unfold timedIdx
  simp [List.mem_filter, List.mem_range, Option.isSome_iff_ne_none]

theorem timedIdx_pairwise_lt (photos : List PhotoInfo) :
    (timedIdx photos).Pairwise (· < ·) :=
  (List.pairwise_lt_range _).sublist (List.filter_sublist _)

theorem timedIdx_nodup (photos : List PhotoInfo) : (timedIdx photos).Nodup :=
  (timedIdx_pairwise_lt photos).imp ne_of_lt

theorem mem_sortedTimed (photos : List PhotoInfo) (i : ℕ) :
    i ∈ sortedTimed photos ↔ i ∈ timedIdx photos :=
  List.mem_insertionSort _

theorem sortedTimed_nodup (photos : List PhotoInfo) : (sortedTimed photos).Nodup :=
  ((List.perm_insertionSort _ _).nodup_iff).mpr (timedIdx_nodup photos)

theorem sortedTimed_length (photos : List PhotoInfo) :
    (sortedTimed photos).length = (timedIdx photos).length :=
  List.length_insertionSort _ _

theorem sortedTimed_sorted (photos : List PhotoInfo) :
    (sortedTimed photos).Sorted (fun a b => tsVal photos a ≤ tsVal photos b) := by
  haveI : IsTotal ℕ (fun a b => tsVal photos a ≤ tsVal photos b) :=
    ⟨fun a b => le_total _ _⟩
  haveI : IsTrans ℕ (fun a b => tsVal photos a ≤ tsVal photos b) :=
    ⟨fun _ _ _ h1 h2 => le_trans h1 h2⟩
  exact List.sorted_insertionSort _ _

theorem orderedInsert_stable (photos : List PhotoInfo) (a : ℕ) :
    ∀ (s : List ℕ),
      s.Pairwise (fun x y => tsVal photos x = tsVal photos y → x < y) →
      (∀ b ∈ s, a < b) →
      (s.orderedInsert (fun x y => tsVal photos x ≤ tsVal photos y) a).Pairwise
        (fun x y => tsVal photos x = tsVal photos y → x < y) := by
  intro s
  induction s with
  | nil => intro _ _; simp
  | cons c s ih =>
    intro hQ ha
    rw [List.orderedInsert]
    by_cases hr : tsVal photos a ≤ tsVal photos c
    · rw [if_pos hr]
      exact List.pairwise_cons.mpr
        ⟨fun x hx _ => ha x hx, hQ⟩
    · rw [if_neg hr]
      rcases List.pairwise_cons.mp hQ with ⟨hQc, hQs⟩
      refine List.pairwise_cons.mpr ⟨?_, ih hQs (fun b hb => ha b (List.mem_cons_of_mem c hb))⟩
      intro x hx
      rcases (List.mem_orderedInsert _).mp hx with rfl | hxs
      · intro heq
        exact absurd (le_of_eq heq.symm) hr
      · exact hQc x hxs

theorem insertionSort_stable (photos : List PhotoInfo) :
    ∀ (l : List ℕ), l.Pairwise (· < ·) →
      (l.insertionSort (fun x y => tsVal photos x ≤ tsVal photos y)).Pairwise
        (fun x y => tsVal photos x = tsVal photos y → x < y) := by
  intro l
  induction l with
  | nil => intro _; simp
  | cons a l ih =>
    intro hl
    rcases List.pairwise_cons.mp hl with ⟨hal, hlp⟩
    rw [List.insertionSort]
    refine orderedInsert_stable photos a _ (ih hlp) ?_
    intro b hb
    exact hal b ((List.mem_insertionSort _).mp hb)

theorem sortedTimed_stable (photos : List PhotoInfo) :
    (sortedTimed photos).Pairwise
      (fun x y => tsVal photos x = tsVal photos y → x < y) :=
  insertionSort_stable photos (timedIdx photos) (timedIdx_pairwise_lt photos)

/-- The sorted list is strictly ordered by (timestamp, then index). -/
theorem sortedTimed_pairwise_ord (photos : List PhotoInfo) :
    (sortedTimed photos).Pairwise
      (fun x y => tsVal photos x < tsVal photos y ∨
        (tsVal photos x = tsVal photos y ∧ x < y)) := by
  refine ((sortedTimed_sorted photos).and (sortedTimed_stable photos)).imp ?_
  rintro a b ⟨hle, hst⟩
  rcases lt_or_eq_of_le hle with h | h
  · exact Or.inl h
  · exact Or.inr ⟨h, hst h⟩

/-! ### Series grouping: runs (claim C5) -/

theorem chunkRuns_cons (photos : List PhotoInfo) (x : ℕ) (xs : List ℕ) :
    ∃ t ts, chunkRuns photos (x :: xs) = (x :: t) :: ts := by
  cases xs with
  | nil => exact ⟨[], [], rfl⟩
  | cons b rest =>
    rw [chunkRuns]
    by_cases h : tsVal photos b - tsVal photos x ≤ SERIES_GAP_SECONDS
    · rw [if_pos h]
      rcases hE : chunkRuns photos (b :: rest) with _ | ⟨run, srest⟩
      · exact ⟨[], [], rfl⟩
      · exact ⟨run, srest, rfl⟩
    · rw [if_neg h]
      exact ⟨[], chunkRuns photos (b :: rest), rfl⟩

theorem chunkRuns_flatten (photos : List PhotoInfo) :
    ∀ (l : List ℕ), (chunkRuns photos l).flatten = l := by
  intro l
  induction l with
  | nil => rfl
  | cons a l ih =>
    cases l with
    | nil => rfl
    | cons b rest =>
      rw [chunkRuns]
      by_cases h : tsVal photos b - tsVal photos a ≤ SERIES_GAP_SECONDS
      · rw [if_pos h]
        obtain ⟨t, ts, hE⟩ := chunkRuns_cons photos b rest
        rw [hE]
        have := ih
        rw [hE] at this
        simpa using this
      · rw [if_neg h]
        simpa using ih

theorem chunkRuns_ne_nil (photos : List PhotoInfo) :
    ∀ (l : List ℕ), ∀ r ∈ chunkRuns photos l, r ≠ [] := by
  intro l
  induction l with
  | nil => intro r hr; cases hr
  | cons a l ih =>
    cases l with
    | nil =>
      intro r hr
      simp only [chunkRuns, List.mem_singleton] at hr
      subst hr
      simp
    | cons b rest =>
      rw [chunkRuns]
      by_cases h : tsVal photos b - tsVal photos a ≤ SERIES_GAP_SECONDS
      · rw [if_pos h]
        obtain ⟨t, ts, hE⟩ := chunkRuns_cons photos b rest
        rw [hE]
        intro r hr
        rcases List.mem_cons.mp hr with rfl | hr
        · simp
        · exact ih r (by rw [hE]; exact List.mem_cons_of_mem _ hr)
      · rw [if_neg h]
        intro r hr
        rcases List.mem_cons.mp hr with rfl | hr
        · simp
        · exact ih r hr

theorem chunkRuns_chain (photos : List PhotoInfo) :
    ∀ (l : List ℕ), ∀ r ∈ chunkRuns photos l,
      r.Chain' (fun a b => tsVal photos b - tsVal photos a ≤ SERIES_GAP_SECONDS) := by
  intro l
  induction l with
  | nil => intro r hr; cases hr
  | cons a l ih =>
    cases l with
    | nil =>
      intro r hr
      simp only [chunkRuns, List.mem_singleton] at hr
      subst hr
      simp
    | cons b rest =>
      rw [chunkRuns]
      by_cases h : tsVal photos b - tsVal photos a ≤ SERIES_GAP_SECONDS
      · rw [if_pos h]
        obtain ⟨t, ts, hE⟩ := chunkRuns_cons photos b rest
        rw [hE]
        intro r hr
        rcases List.mem_cons.mp hr with rfl | hr
        · have hbt : (b :: t).Chain' _ := ih (b :: t) (by rw [hE]; exact List.mem_cons_self _ _)
          exact List.chain'_cons.mpr ⟨h, hbt⟩
        · exact ih r (by rw [hE]; exact List.mem_cons_of_mem _ hr)
      · rw [if_neg h]
        intro r hr
        rcases List.mem_cons.mp hr with rfl | hr
        · simp
        · exact ih r hr

theorem seriesLoop_eq (photos : List PhotoInfo) :
    ∀ (rest : List ℕ) (prev : ℕ) (cur : List ℕ) (acc : List (List ℕ))
      (t : List ℕ) (ts : List (List ℕ)),
      chunkRuns photos (prev :: rest) = (prev :: t) :: ts →
      seriesLoop photos prev rest cur acc =
        acc ++ ((cur ++ t) :: ts).filter (fun r => 2 ≤ r.length) := by
  intro rest
  induction rest with
  | nil =>
    intro prev cur acc t ts hE
    rw [chunkRuns] at hE
    injection hE with h1 h2
    injection h1 with _ h1t
    subst h2
    subst h1t
    rw [seriesLoop]
    by_cases hc : 2 ≤ cur.length
    · rw [if_pos hc]
      simp [List.filter_cons, hc]
    · rw [if_neg hc]
      simp [List.filter_cons, hc]
  | cons c rest' ih =>
    intro prev cur acc t ts hE
    rw [chunkRuns] at hE
    obtain ⟨t', ts', hE'⟩ := chunkRuns_cons photos c rest'
    rw [seriesLoop]
    by_cases h : tsVal photos c - tsVal photos prev ≤ SERIES_GAP_SECONDS
    · rw [if_pos h] at hE ⊢
      rw [hE'] at hE
      injection hE with h1 h2
      injection h1 with _ h1t
      subst h2
      subst h1t
      rw [ih c (cur ++ [c]) acc t' ts' hE']
      simp
    · rw [if_neg h] at hE ⊢
      rw [hE'] at hE
      injection hE with h1 h2
      injection h1 with _ h1t
      subst h2
      subst h1t
      rw [ih c [c] _ t' ts' hE']
      by_cases hc : 2 ≤ cur.length
      · rw [if_pos hc]
        simp [List.filter_cons, hc]
      · rw [if_neg hc]
        simp [List.filter_cons, hc]

theorem buildSeries_eq (photos : List PhotoInfo) :
    buildSeries photos =
      (chunkRuns photos (sortedTimed photos)).filter (fun r => 2 ≤ r.length) := by
  unfold buildSeries
  rcases hS : sortedTimed photos with _ | ⟨s0, rest⟩
  · rw [chunkRuns]
    rfl
  · obtain ⟨t, ts, hE⟩ := chunkRuns_cons photos s0 rest
    dsimp only
    rw [seriesLoop_eq photos rest s0 [s0] [] t ts hE, hE]
    simp

theorem chunkRuns_sublist (photos : List PhotoInfo) (l : List ℕ) :
    ∀ r ∈ chunkRuns photos l, List.Sublist r l := by
  intro r hr
  have h1 : List.Sublist r (chunkRuns photos l).flatten :=
    List.sublist_flatten_of_mem hr
  rwa [chunkRuns_flatten photos l] at h1

theorem chunkRuns_mem_lift (photos : List PhotoInfo) (a : ℕ) (l : List ℕ)
    (hl : l ≠ []) : ∀ r ∈ chunkRuns photos l, ∃ r',
      r' ∈ chunkRuns photos (a :: l) ∧ ∀ x ∈ r, x ∈ r' := by
  cases l with
  | nil => exact absurd rfl hl
  | cons b rest =>
    intro r hr
    obtain ⟨t, ts, hE⟩ := chunkRuns_cons photos b rest
    rw [chunkRuns]
    by_cases h : tsVal photos b - tsVal photos a ≤ SERIES_GAP_SECONDS
    · rw [if_pos h, hE]
      rw [hE] at hr
      rcases List.mem_cons.mp hr with rfl | hr
      · exact ⟨a :: b :: t, List.mem_cons_self _ _, fun x hx => List.mem_cons_of_mem a hx⟩
      · exact ⟨r, List.mem_cons_of_mem _ hr, fun x hx => hx⟩
    · rw [if_neg h]
      exact ⟨r, List.mem_cons_of_mem _ hr, fun x hx => hx⟩

/-- Adjacent entries of the sorted list whose gap is within the threshold
end up in one chunk. -/
theorem chunkRuns_adjacent (photos : List PhotoInfo) :
    ∀ (l : List ℕ) (k : ℕ), k + 1 < l.length →
      tsVal photos (l.getD (k + 1) 0) - tsVal photos (l.getD k 0) ≤ SERIES_GAP_SECONDS →
      ∃ r ∈ chunkRuns photos l, l.getD k 0 ∈ r ∧ l.getD (k + 1) 0 ∈ r := by
  intro l
  induction l with
  | nil => intro k hk; simp at hk
  | cons a l ih =>
    intro k hk hgap
    cases k with
    | zero =>
      cases l with
      | nil => simp at hk
      | cons b rest =>
        simp only [List.getD_cons_zero, List.getD_cons_succ] at hgap ⊢
        rw [chunkRuns]
        rw [if_pos hgap]
        obtain ⟨t, ts, hE⟩ := chunkRuns_cons photos b rest
        rw [hE]
        exact ⟨a :: b :: t, List.mem_cons_self _ _,
          List.mem_cons_self _ _, List.mem_cons_of_mem _ (List.mem_cons_self _ _)⟩
    | succ k =>
      simp only [List.getD_cons_succ] at hgap ⊢
      have hk' : k + 1 < l.length := by simpa using hk
      obtain ⟨r, hr, hx1, hx2⟩ := ih k hk' hgap
      have hlne : l ≠ [] := by
        intro h
        rw [h] at hk'
        simp at hk'
      obtain ⟨r', hr', hsub⟩ := chunkRuns_mem_lift photos a l hlne r hr
      exact ⟨r', hr', hsub _ hx1, hsub _ hx2⟩

/-- In a list of pairwise-disjoint chunks, an element determines its chunk. -/
theorem mem_unique_of_pairwise_disjoint {gs : List (List ℕ)}
    (hd : gs.Pairwise List.Disjoint) :
    ∀ r1 ∈ gs, ∀ r2 ∈ gs, ∀ i, i ∈ r1 → i ∈ r2 → r1 = r2 := by
  induction gs with
  | nil => intro r1 hr1; cases hr1
  | cons g gs ih =>
    rcases List.pairwise_cons.mp hd with ⟨hg, hgs⟩
    intro r1 hr1 r2 hr2 i hi1 hi2
    rcases List.mem_cons.mp hr1 with h1 | h1
    · rcases List.mem_cons.mp hr2 with h2 | h2
      · rw [h1, h2]
      · exfalso
        subst h1
        exact hg r2 h2 hi1 hi2
    · rcases List.mem_cons.mp hr2 with h2 | h2
      · exfalso
        subst h2
        exact hg r1 h1 hi2 hi1
      · exact ih hgs r1 h1 r2 h2 i hi1 hi2

theorem chunkRuns_disjoint (photos : List PhotoInfo) (l : List ℕ) (hl : l.Nodup) :
    (chunkRuns photos l).Pairwise List.Disjoint ∧
      ∀ r ∈ chunkRuns photos l, r.Nodup := by
  have h : (chunkRuns photos l).flatten.Nodup := by
    rw [chunkRuns_flatten photos l]
    exact hl
  rw [List.nodup_flatten] at h
  exact ⟨h.2, h.1⟩

/-- Two entries of the sorted list within the gap threshold of each other are
in one chunk (the consecutive gaps between them are all within the
threshold). -/
theorem chunkRuns_join (photos : List PhotoInfo) (l : List ℕ) (hl : l.Nodup)
    (hs : l.Pairwise (fun a b => tsVal photos a ≤ tsVal photos b)) :
    ∀ (d pi pj : ℕ), pj < l.length → pi ≤ pj → pj - pi = d →
      tsVal photos (l.getD pj 0) - tsVal photos (l.getD pi 0) ≤ SERIES_GAP_SECONDS →
      ∃ r ∈ chunkRuns photos l, l.getD pi 0 ∈ r ∧ l.getD pj 0 ∈ r := by
  have hsle : ∀ (x y : ℕ), y < l.length → x ≤ y →
      tsVal photos (l.getD x 0) ≤ tsVal photos (l.getD y 0) := by
    intro x y hy hxy
    rcases Nat.lt_or_ge x y with h | h
    · have hx : x < l.length := by omega
      rw [List.getD_eq_getElem l 0 hx, List.getD_eq_getElem l 0 hy]
      exact (List.pairwise_iff_getElem.mp hs) x y hx hy h
    · have : x = y := by omega
      subst this
      exact le_rfl
  intro d
  induction d with
  | zero =>
    intro pi pj hj hle hd _
    have hpij : pi = pj := by omega
    subst hpij
    have hmem : l.getD pi 0 ∈ (chunkRuns photos l).flatten := by
      rw [chunkRuns_flatten photos l, List.getD_eq_getElem l 0 hj]
      exact List.getElem_mem _
    rcases List.mem_flatten.mp hmem with ⟨r, hr, hir⟩
    exact ⟨r, hr, hir, hir⟩
  | succ d ih =>
    intro pi pj hj hle hd hgap
    have hpi : pi < pj := by omega
    have hj1 : pj - 1 < l.length := by omega
    have hgap1 : tsVal photos (l.getD pj 0) - tsVal photos (l.getD (pj - 1) 0) ≤
        SERIES_GAP_SECONDS := by
      have h1 := hsle pi (pj - 1) hj1 (by omega)
      linarith
    have hadj := chunkRuns_adjacent photos l (pj - 1) (by omega)
    rw [show pj - 1 + 1 = pj by omega] at hadj
    obtain ⟨r', hr', hm1, hm2⟩ := hadj hgap1
    have hgap2 : tsVal photos (l.getD (pj - 1) 0) - tsVal photos (l.getD pi 0) ≤
        SERIES_GAP_SECONDS := by
      have h2 := hsle (pj - 1) pj hj (by omega)
      linarith
    obtain ⟨r, hr, hm3, hm4⟩ := ih pi (pj - 1) hj1 (by omega) (by omega) hgap2
    have heq : r = r' :=
      mem_unique_of_pairwise_disjoint (chunkRuns_disjoint photos l hl).1
        r hr r' hr' _ hm4 hm1
    subst heq
    exact ⟨r, hr, hm3, hm2⟩

/-- Inside a chunk, every point of the time span `[ts a, ts b)` is followed
within the gap threshold by some member. -/
theorem run_cover (photos : List PhotoInfo) (u : ℚ) :
    ∀ (r : List ℕ),
      r.Chain' (fun a b => tsVal photos b - tsVal photos a ≤ SERIES_GAP_SECONDS) →
      r.Pairwise (fun a b => tsVal photos a ≤ tsVal photos b) →
      ∀ a ∈ r, ∀ b ∈ r, tsVal photos a ≤ u → u < tsVal photos b →
        ∃ k ∈ r, u < tsVal photos k ∧ tsVal photos k ≤ u + SERIES_GAP_SECONDS := by
  intro r
  induction r with
  | nil => intro _ _ a ha; cases ha
  | cons c r' ih =>
    intro hchain hsort a ha b hb hau hub
    by_cases hcu : tsVal photos c ≤ u
    · cases r' with
      | nil =>
        rcases List.mem_singleton.mp hb with rfl
        exact absurd hub (not_lt.mpr hcu)
      | cons c2 r'' =>
        by_cases hc2 : u < tsVal photos c2
        · refine ⟨c2, List.mem_cons_of_mem _ (List.mem_cons_self _ _), hc2, ?_⟩
          have hg : tsVal photos c2 - tsVal photos c ≤ SERIES_GAP_SECONDS :=
            (List.chain'_cons.mp hchain).1
          linarith
        · have hb' : b ∈ c2 :: r'' := by
            rcases List.mem_cons.mp hb with rfl | hb'
            · exact absurd hub (not_lt.mpr hcu)
            · exact hb'
          obtain ⟨k, hk, hk1, hk2⟩ := ih (List.chain'_cons.mp hchain).2
            (List.pairwise_cons.mp hsort).2 c2 (List.mem_cons_self _ _) b hb'
            (not_lt.mp hc2) hub
          exact ⟨k, List.mem_cons_of_mem _ hk, hk1, hk2⟩
    · exfalso
      rcases List.mem_cons.mp ha with rfl | ha'
      · exact hcu hau
      · have : tsVal photos c ≤ tsVal photos a :=
          (List.pairwise_cons.mp hsort).1 a ha'
        exact hcu (le_trans this hau)

/-- A member of a chunk of size ≥ 2 has another member within the gap
threshold. -/
theorem run_neighbor (photos : List PhotoInfo) :
    ∀ (r : List ℕ),
      r.Chain' (fun a b => tsVal photos b - tsVal photos a ≤ SERIES_GAP_SECONDS) →
      r.Pairwise (fun a b => tsVal photos a ≤ tsVal photos b) →
      r.Nodup → 2 ≤ r.length → ∀ i ∈ r,
        ∃ j ∈ r, j ≠ i ∧ |tsVal photos j - tsVal photos i| ≤ SERIES_GAP_SECONDS := by
  intro r
  induction r with
  | nil => intro _ _ _ h; simp at h
  | cons a r' ih =>
    intro hchain hsort hnodup hlen i hi
    cases r' with
    | nil => simp at hlen
    | cons b r'' =>
      have hab : tsVal photos b - tsVal photos a ≤ SERIES_GAP_SECONDS :=
        (List.chain'_cons.mp hchain).1
      have haleb : tsVal photos a ≤ tsVal photos b :=
        (List.pairwise_cons.mp hsort).1 b (List.mem_cons_self _ _)
      rcases List.mem_cons.mp hi with rfl | hi'
      · refine ⟨b, List.mem_cons_of_mem _ (List.mem_cons_self _ _), ?_, ?_⟩
        · intro h
          subst h
          exact (List.nodup_cons.mp hnodup).1 (List.mem_cons_self _ _)
        · rw [abs_of_nonneg (by linarith)]
          linarith
      · cases r'' with
        | nil =>
          rcases List.mem_singleton.mp hi' with rfl
          refine ⟨a, List.mem_cons_self _ _, ?_, ?_⟩
          · intro h
            subst h
            exact (List.nodup_cons.mp hnodup).1 (List.mem_cons_self _ _)
          · rw [abs_sub_comm, abs_of_nonneg (by linarith)]
            linarith
        | cons c r''' =>
          obtain ⟨j, hj, hji, hjd⟩ := ih (List.chain'_cons.mp hchain).2
            (List.pairwise_cons.mp hsort).2 (List.nodup_cons.mp hnodup).2
            (by simp) i hi'
          exact ⟨j, List.mem_cons_of_mem _ hj, hji, hjd⟩

/-! ### The member-writing folds -/

theorem foldl_modifyIdx_writes (f : PhotoInfo → PhotoInfo) :
    ∀ (r : List ℕ) (ps : List PhotoInfo), r.Nodup →
      ((r.foldl (fun ps idx => modifyIdx ps idx f) ps).length = ps.length) ∧
      (∀ i, i ∉ r →
        (r.foldl (fun ps idx => modifyIdx ps idx f) ps).getD i default =
          ps.getD i default) ∧
      (∀ i ∈ r, i < ps.length →
        (r.foldl (fun ps idx => modifyIdx ps idx f) ps).getD i default =
          f (ps.getD i default)) := by
  intro r
  induction r with
  | nil =>
    intro ps _
    exact ⟨rfl, fun i _ => rfl, fun i hi => absurd hi (List.not_mem_nil i)⟩
  | cons a r ih =>
    intro ps hnd
    rcases List.nodup_cons.mp hnd with ⟨ha, hnd'⟩
    obtain ⟨ihlen, ihout, ihin⟩ := ih (modifyIdx ps a f) hnd'
    refine ⟨?_, ?_, ?_⟩
    · rw [List.foldl_cons, ihlen, modifyIdx_length]
    · intro i hi
      rw [List.foldl_cons, ihout i (fun h => hi (List.mem_cons_of_mem a h)),
        getD_modifyIdx_ne ps a f i default (fun h => hi (h ▸ List.mem_cons_self a r))]
    · intro i hi hilen
      rcases List.mem_cons.mp hi with rfl | hir
      · rw [List.foldl_cons, ihout i ha, getD_modifyIdx_self ps i f default hilen]
      · have hia : i ≠ a := fun h => ha (h ▸ hir)
        rw [List.foldl_cons, ihin i hir (by rwa [modifyIdx_length]),
          getD_modifyIdx_ne ps a f i default hia]

/-- The fold of the source's `max(members, key=...)` either keeps the initial
element or picks a strictly sharper element of the tail. -/
theorem argmax_fold_cases (ps : List PhotoInfo) :
    ∀ (ms : List ℕ) (m : ℕ),
      (ms.foldl
          (fun best i => if sharpnessOf ps best < sharpnessOf ps i then i else best)
          m) = m ∨
      ((ms.foldl
          (fun best i => if sharpnessOf ps best < sharpnessOf ps i then i else best)
          m) ∈ ms ∧
        sharpnessOf ps m <
          sharpnessOf ps
            (ms.foldl
              (fun best i => if sharpnessOf ps best < sharpnessOf ps i then i else best)
              m)) := by
  intro ms
  induction ms with
  | nil => intro m; exact Or.inl rfl
  | cons b ms ih =>
    intro m
    rw [List.foldl_cons]
    by_cases h : sharpnessOf ps m < sharpnessOf ps b
    · rw [if_pos h]
      rcases ih b with heq | ⟨hmem, hlt⟩
      · rw [heq]
        exact Or.inr ⟨List.mem_cons_self _ _, h⟩
      · exact Or.inr ⟨List.mem_cons_of_mem _ hmem, lt_trans h hlt⟩
    · rw [if_neg h]
      rcases ih m with heq | ⟨hmem, hlt⟩
      · exact Or.inl heq
      · exact Or.inr ⟨List.mem_cons_of_mem _ hmem, hlt⟩

theorem argmaxSharp_cons_cons (ps : List PhotoInfo) (m b : ℕ) (ms : List ℕ) :
    argmaxSharp ps (m :: b :: ms) =
      if sharpnessOf ps m < sharpnessOf ps b then argmaxSharp ps (b :: ms)
      else argmaxSharp ps (m :: ms) := by
  show List.foldl _ (if sharpnessOf ps m < sharpnessOf ps b then b else m) ms = _
  by_cases h : sharpnessOf ps m < sharpnessOf ps b
  · rw [if_pos h, if_pos h]
    rfl
  · rw [if_neg h, if_neg h]
    rfl

/-- `argmaxSharp` returns a member of maximal sharpness that precedes (in the
sense of any relation the list is pairwise ordered by) every other member of
the same sharpness: Python's `max` keeps the first maximal element. -/
theorem argmaxSharp_first (ps : List PhotoInfo) (P : ℕ → ℕ → Prop) :
    ∀ (ms : List ℕ) (m : ℕ), (m :: ms).Pairwise P →
      argmaxSharp ps (m :: ms) ∈ m :: ms ∧
      (∀ j ∈ m :: ms,
        sharpnessOf ps j ≤ sharpnessOf ps (argmaxSharp ps (m :: ms)) ∧
        (sharpnessOf ps j = sharpnessOf ps (argmaxSharp ps (m :: ms)) →
          argmaxSharp ps (m :: ms) = j ∨ P (argmaxSharp ps (m :: ms)) j)) := by
  intro ms
  induction ms with
  | nil =>
    intro m _
    refine ⟨List.mem_singleton_self m, ?_⟩
    intro j hj
    rcases List.mem_singleton.mp hj with rfl
    exact ⟨le_rfl, fun _ => Or.inl rfl⟩
  | cons b ms ih =>
    intro m hP
    rw [argmaxSharp_cons_cons]
    by_cases h : sharpnessOf ps m < sharpnessOf ps b
    · rw [if_pos h]
      obtain ⟨ihmem, ihprop⟩ := ih b (List.pairwise_cons.mp hP).2
      refine ⟨List.mem_cons_of_mem _ ihmem, ?_⟩
      intro j hj
      rcases List.mem_cons.mp hj with rfl | hjtl
      · have hle : sharpnessOf ps b ≤ sharpnessOf ps (argmaxSharp ps (b :: ms)) :=
          (ihprop b (List.mem_cons_self _ _)).1
        refine ⟨le_of_lt (lt_of_lt_of_le h hle), ?_⟩
        intro heq
        exact absurd (heq ▸ lt_of_lt_of_le h hle) (lt_irrefl _)
      · exact ihprop j hjtl
    · rw [if_neg h]
      have hsub : List.Sublist (m :: ms) (m :: b :: ms) :=
        List.Sublist.cons₂ m (List.sublist_cons_self b ms)
      obtain ⟨ihmem, ihprop⟩ := ih m (hP.sublist hsub)
      refine ⟨?_, ?_⟩
      · rcases List.mem_cons.mp ihmem with heq | hmem
        · rw [heq]; exact List.mem_cons_self _ _
        · exact List.mem_cons_of_mem _ (List.mem_cons_of_mem _ hmem)
      · intro j hj
        rcases List.mem_cons.mp hj with rfl | hjtl
        · exact ihprop j (List.mem_cons_self _ _)
        · rcases List.mem_cons.mp hjtl with rfl | hj2
          · have hbm : sharpnessOf ps j ≤ sharpnessOf ps m := not_lt.mp h
            have hmy : sharpnessOf ps m ≤ sharpnessOf ps (argmaxSharp ps (m :: ms)) :=
              (ihprop m (List.mem_cons_self _ _)).1
            refine ⟨le_trans hbm hmy, ?_⟩
            intro heq
            rcases argmax_fold_cases ps ms m with hcase | ⟨_, hlt⟩
            · have hym : argmaxSharp ps (m :: ms) = m := hcase
              right
              rw [hym]
              exact (List.pairwise_cons.mp hP).1 j (List.mem_cons_self _ _)
            · exfalso
              have hle2 : sharpnessOf ps (argmaxSharp ps (m :: ms)) ≤ sharpnessOf ps m :=
                heq ▸ hbm
              exact absurd hlt (not_lt.mpr hle2)
          · exact ihprop j (List.mem_cons_of_mem _ hj2)

/-- `argmaxSharp` depends only on the sharpness of the listed members. -/
theorem argmaxSharp_congr (ps qs : List PhotoInfo) :
    ∀ (ms : List ℕ) (m : ℕ),
      (∀ i ∈ m :: ms, sharpnessOf ps i = sharpnessOf qs i) →
      argmaxSharp ps (m :: ms) = argmaxSharp qs (m :: ms) := by
  intro ms
  induction ms with
  | nil => intro m _; rfl
  | cons b ms ih =>
    intro m hpt
    show (List.foldl _ (if sharpnessOf ps m < sharpnessOf ps b then b else m) ms) =
      (List.foldl _ (if sharpnessOf qs m < sharpnessOf qs b then b else m) ms)
    rw [hpt m (List.mem_cons_self _ _),
      hpt b (List.mem_cons_of_mem _ (List.mem_cons_self _ _))]
    by_cases h : sharpnessOf qs m < sharpnessOf qs b
    · rw [if_pos h]
      exact ih b (fun i hi => by
        rcases List.mem_cons.mp hi with rfl | hi'
        · exact hpt i (List.mem_cons_of_mem _ (List.mem_cons_self _ _))
        · exact hpt i (List.mem_cons_of_mem _ (List.mem_cons_of_mem _ hi')))
    · rw [if_neg h]
      exact ih m (fun i hi => by
        rcases List.mem_cons.mp hi with rfl | hi'
        · exact hpt i (List.mem_cons_self _ _)
        · exact hpt i (List.mem_cons_of_mem _ (List.mem_cons_of_mem _ hi')))

theorem argmaxSharp_mem (ps : List PhotoInfo) (ms : List ℕ) (h : ms ≠ []) :
    argmaxSharp ps ms ∈ ms := by
  cases ms with
  | nil => exact absurd rfl h
  | cons m ms =>
    exact (argmaxSharp_first ps (fun _ _ => True) ms m
      (List.pairwise_of_forall (fun _ _ => trivial))).1

/-- What one `assignSeries` step does to the photo list: every member of the
run gets the group id and score 0.3, except the first sharpest member, which
is flagged best and scores 1.0; everything else is untouched. -/
theorem assignSeries_spec (ps : List PhotoInfo) (g0 : ℤ) (r : List ℕ)
    (hnd : r.Nodup) (hbound : ∀ i ∈ r, i < ps.length) (hne : r ≠ []) :
    (assignSeries (ps, g0) r).2 = g0 + 1 ∧
    (assignSeries (ps, g0) r).1.length = ps.length ∧
    (∀ i, i ∉ r →
      (assignSeries (ps, g0) r).1.getD i default = ps.getD i default) ∧
    (∀ i ∈ r,
      ((assignSeries (ps, g0) r).1.getD i default).series_group = g0 ∧
      ((assignSeries (ps, g0) r).1.getD i default).is_best_in_series =
        (if i = argmaxSharp ps r then true
         else (ps.getD i default).is_best_in_series) ∧
      ((assignSeries (ps, g0) r).1.getD i default).series_score =
        (if i = argmaxSharp ps r then 1.0 else 0.3) ∧
      seriesFrameKey ((assignSeries (ps, g0) r).1.getD i default) =
        seriesFrameKey (ps.getD i default)) := by
  obtain ⟨hlen1, hout1, hin1⟩ :=
    foldl_modifyIdx_writes
      (fun p => { p with series_group := g0, series_score := 0.3 }) r ps hnd
  set ps1 := r.foldl
    (fun ps idx =>
      modifyIdx ps idx (fun p => { p with series_group := g0, series_score := 0.3 })) ps
    with hps1
  have hsharp : ∀ i ∈ r, sharpnessOf ps1 i = sharpnessOf ps i := by
    intro i hi
    unfold sharpnessOf
    rw [hin1 i hi (hbound i hi)]
  have hargmax : argmaxSharp ps1 r = argmaxSharp ps r := by
    cases r with
    | nil => rfl
    | cons m ms => exact argmaxSharp_congr ps1 ps ms m hsharp
  have hbestmem : argmaxSharp ps1 r ∈ r := argmaxSharp_mem ps1 r hne
  have hbestlen : argmaxSharp ps1 r < ps1.length := by
    rw [hlen1]
    exact hbound _ (hargmax ▸ hbestmem)
  have hstep : assignSeries (ps, g0) r =
      (modifyIdx ps1 (argmaxSharp ps1 r)
        (fun p => { p with is_best_in_series := true, series_score := 1.0 }), g0 + 1) := rfl
  rw [hstep]
  refine ⟨rfl, ?_, ?_, ?_⟩
  · rw [modifyIdx_length, hlen1]
  · intro i hi
    rw [getD_modifyIdx_ne _ _ _ i default (fun h => hi (h ▸ hbestmem)), hout1 i hi]
  · intro i hi
    by_cases hib : i = argmaxSharp ps r
    · have hib1 : i = argmaxSharp ps1 r := by rw [hargmax]; exact hib
      rw [hib1]
      rw [getD_modifyIdx_self _ _ _ default hbestlen,
        hin1 _ (hib1 ▸ hi) (hbound _ (hib1 ▸ hi))]
      exact ⟨rfl, by rw [if_pos hargmax], by rw [if_pos hargmax], rfl⟩
    · have hib1 : i ≠ argmaxSharp ps1 r := by rwa [hargmax]
      rw [getD_modifyIdx_ne _ _ _ i default hib1, hin1 i hi (hbound i hi)]
      exact ⟨rfl, by rw [if_neg hib], by rw [if_neg hib], rfl⟩

/-- What the whole `assignSeries` fold does: run `t` (0-based) gets group id
`g0 + t`, members score 0.3 except the first sharpest member (1.0, flagged);
indices in no run are untouched. -/
theorem assignSeries_fold :
    ∀ (runs : List (List ℕ)) (ps : List PhotoInfo) (g0 : ℤ),
      runs.Pairwise List.Disjoint → (∀ r ∈ runs, r.Nodup) →
      (∀ r ∈ runs, r ≠ []) → (∀ r ∈ runs, ∀ i ∈ r, i < ps.length) →
      ((runs.foldl assignSeries (ps, g0)).1.length = ps.length ∧
       (∀ i, (∀ r ∈ runs, i ∉ r) →
         (runs.foldl assignSeries (ps, g0)).1.getD i default = ps.getD i default) ∧
       (∀ t, t < runs.length → ∀ i ∈ runs.getD t [],
         ((runs.foldl assignSeries (ps, g0)).1.getD i default).series_group =
           g0 + (t : ℤ) ∧
         ((runs.foldl assignSeries (ps, g0)).1.getD i default).is_best_in_series =
           (if i = argmaxSharp ps (runs.getD t []) then true
            else (ps.getD i default).is_best_in_series) ∧
         ((runs.foldl assignSeries (ps, g0)).1.getD i default).series_score =
           (if i = argmaxSharp ps (runs.getD t []) then 1.0 else 0.3) ∧
         seriesFrameKey ((runs.foldl assignSeries (ps, g0)).1.getD i default) =
           seriesFrameKey (ps.getD i default))) := by
  intro runs
  induction runs with
  | nil =>
    intro ps g0 _ _ _ _
    exact ⟨rfl, fun i _ => rfl, fun t ht => by simp at ht⟩
  | cons r runs' ih =>
    intro ps g0 hdisj hnd hne hb
    rcases List.pairwise_cons.mp hdisj with ⟨hdr, hdisj'⟩
    obtain ⟨hg1, hlen1, hout1, hin1⟩ :=
      assignSeries_spec ps g0 r (hnd r (List.mem_cons_self _ _))
        (hb r (List.mem_cons_self _ _)) (hne r (List.mem_cons_self _ _))
    have hfold : (r :: runs').foldl assignSeries (ps, g0) =
        runs'.foldl assignSeries (assignSeries (ps, g0) r) := rfl
    have hpair : assignSeries (ps, g0) r =
        ((assignSeries (ps, g0) r).1, g0 + 1) := by
      rw [← hg1]
    set ps1 := (assignSeries (ps, g0) r).1 with hps1
    obtain ⟨ihlen, ihout, ihin⟩ := ih ps1 (g0 + 1) hdisj'
      (fun r' hr' => hnd r' (List.mem_cons_of_mem _ hr'))
      (fun r' hr' => hne r' (List.mem_cons_of_mem _ hr'))
      (fun r' hr' i hi => by rw [hlen1]; exact hb r' (List.mem_cons_of_mem _ hr') i hi)
    rw [hfold, hpair]
    have hsharp1 : ∀ i, i ∉ r → sharpnessOf ps1 i = sharpnessOf ps i := by
      intro i hi
      unfold sharpnessOf
      rw [hout1 i hi]
    refine ⟨by rw [ihlen, hlen1], ?_, ?_⟩
    · intro i hi
      rw [ihout i (fun r' hr' => hi r' (List.mem_cons_of_mem _ hr')),
        hout1 i (hi r (List.mem_cons_self _ _))]
    · intro t ht i hi
      cases t with
      | zero =>
        try simp only [List.getD_cons_zero] at hi
        have hinot : ∀ r' ∈ runs', i ∉ r' := by
          intro r' hr' hmem
          exact hdr r' hr' hi hmem
        rw [ihout i hinot]
        obtain ⟨e1, e2, e3, e4⟩ := hin1 i hi
        try simp only [List.getD_cons_zero]
        push_cast
        exact ⟨by rw [e1]; ring, e2, e3, e4⟩
      | succ t' =>
        try simp only [List.getD_cons_succ] at hi
        have ht' : t' < runs'.length := by simpa using ht
        obtain ⟨e1, e2, e3, e4⟩ := ihin t' ht' i hi
        have hrt : runs'.getD t' [] ∈ runs' := by
          rw [List.getD_eq_getElem _ _ ht']
          exact List.getElem_mem _
        have hir : i ∉ r := fun hmem => hdr _ hrt hmem hi
        have hps1i : ps1.getD i default = ps.getD i default := hout1 i hir
        have hargeq : argmaxSharp ps1 (runs'.getD t' []) =
            argmaxSharp ps (runs'.getD t' []) := by
          rcases hE : runs'.getD t' [] with _ | ⟨m, ms⟩
          · rfl
          · refine argmaxSharp_congr ps1 ps ms m ?_
            intro x hx
            refine hsharp1 x ?_
            intro hmem
            exact hdr _ hrt hmem (by rw [hE]; exact hx)
        rw [hargeq] at e2 e3
        rw [hps1i] at e2
        refine ⟨?_, e2, e3, by rw [e4, hps1i]⟩
        rw [e1]
        push_cast
        ring

/-! ### Assembly helpers -/

theorem two_le_length_of_mem_ne {α : Type} {r : List α} {i j : α}
    (hi : i ∈ r) (hj : j ∈ r) (hne : i ≠ j) : 2 ≤ r.length := by
  cases r with
  | nil => cases hi
  | cons a r' =>
    cases r' with
    | nil =>
      rcases List.mem_singleton.mp hi with rfl
      rcases List.mem_singleton.mp hj with rfl
      exact absurd rfl hne
    | cons b r'' => simp

theorem exists_ne_mem {r : List ℕ} (hnd : r.Nodup) (hlen : 2 ≤ r.length) {i : ℕ}
    (hi : i ∈ r) : ∃ j ∈ r, j ≠ i := by
  cases r with
  | nil => cases hi
  | cons a r' =>
    cases r' with
    | nil => simp at hlen
    | cons b r'' =>
      by_cases hia : i = a
      · refine ⟨b, List.mem_cons_of_mem _ (List.mem_cons_self _ _), ?_⟩
        intro hba
        rw [hba, hia] at hnd
        exact (List.nodup_cons.mp hnd).1 (List.mem_cons_self _ _)
      · exact ⟨a, List.mem_cons_self _ _, fun h => hia h.symm⟩

theorem ord_asymm (photos : List PhotoInfo) {i j : ℕ}
    (h1 : tsVal photos i < tsVal photos j ∨ (tsVal photos i = tsVal photos j ∧ i < j))
    (h2 : tsVal photos j < tsVal photos i ∨ (tsVal photos j = tsVal photos i ∧ j < i)) :
    False := by
  rcases h1 with h1 | ⟨h1e, h1l⟩ <;> rcases h2 with h2 | ⟨h2e, h2l⟩
  · exact absurd h2 (not_lt.mpr (le_of_lt h1))
  · exact absurd h2e (ne_of_gt h1)
  · exact absurd h1e (ne_of_gt h2)
  · omega

theorem getD_mem_of_lt {α : Type} (l : List α) (d : α) {i : ℕ} (h : i < l.length) :
    l.getD i d ∈ l := by
  rw [List.getD_eq_getElem l d h]
  exact List.getElem_mem h

/-- C5: on records with default series fields, `group_into_series` sorts the
timestamped photos by timestamp, splits them into runs at gaps strictly
greater than 3.0 seconds (a gap of exactly 3.0 seconds stays inside a run),
emits only runs of at least two members (including the trailing run), scores
every member of an emitted run 0.3 except the member with the highest raw
sharpness (first in timestamp order on an exact tie), which is flagged best
with score 1.0; photos in no qualifying run keep series_group = −1 and are
untouched. -/
theorem c5_group_into_series (photos : List PhotoInfo)
    (H : ∀ p ∈ photos, p.series_group = -1 ∧ p.is_best_in_series = false ∧
      p.series_score = 0.5) :
    SeriesSpec photos (group_into_series photos) := by
  have Hd : ∀ i, i < photos.length →
      (photos.getD i default).series_group = -1 ∧
      (photos.getD i default).is_best_in_series = false ∧
      (photos.getD i default).series_score = 0.5 :=
    fun i hi => H _ (getD_mem_of_lt photos default hi)
  by_cases hshort : (timedIdx photos).length < 2
  · have hout : group_into_series photos = photos := by
      unfold group_into_series
      rw [if_pos hshort]
    rw [hout]
    unfold SeriesSpec
    refine ⟨fun i _ _ => rfl, ?_, ?_, ?_, fun i _ _ => rfl, ?_⟩
    · intro i j hi hj hne hti htj _
      exfalso
      have h2 : 2 ≤ (timedIdx photos).length :=
        two_le_length_of_mem_ne ((mem_timedIdx photos i).mpr ⟨hi, hti⟩)
          ((mem_timedIdx photos j).mpr ⟨hj, htj⟩) hne
      omega
    · intro i j hi hj hti htj hg
      exfalso
      rw [(Hd i hi).1] at hg
      omega
    · intro i hi hg
      exfalso
      rw [(Hd i hi).1] at hg
      omega
    · intro i hi _ _
      exact ⟨rfl, (Hd i hi).1⟩
  · set L := sortedTimed photos with hL
    set runs := buildSeries photos with hrunsdef
    have hout : group_into_series photos = (runs.foldl assignSeries (photos, 0)).1 := by
      unfold group_into_series
      rw [if_neg hshort]
    have hLnd : L.Nodup := sortedTimed_nodup photos
    have hLsorted : L.Pairwise (fun a b => tsVal photos a ≤ tsVal photos b) :=
      sortedTimed_sorted photos
    have hLord : L.Pairwise (fun a b => tsVal photos a < tsVal photos b ∨
        (tsVal photos a = tsVal photos b ∧ a < b)) := sortedTimed_pairwise_ord photos
    have hmemL : ∀ i, i ∈ L ↔ i < photos.length ∧ tsOf photos i ≠ none := by
      intro i
      rw [hL, mem_sortedTimed, mem_timedIdx]
    have hruns : runs = (chunkRuns photos L).filter (fun r => 2 ≤ r.length) :=
      buildSeries_eq photos
    have hsubchunk : List.Sublist runs (chunkRuns photos L) := by
      rw [hruns]
      exact List.filter_sublist _
    have hchunkdisj := chunkRuns_disjoint photos L hLnd
    have hdisj : runs.Pairwise List.Disjoint := hchunkdisj.1.sublist hsubchunk
    have hmemrunchunk : ∀ r ∈ runs, r ∈ chunkRuns photos L := by
      intro r hr
      rw [hruns] at hr
      exact (List.mem_filter.mp hr).1
    have hrun2 : ∀ r ∈ runs, 2 ≤ r.length := by
      intro r hr
      rw [hruns] at hr
      simpa using (List.mem_filter.mp hr).2
    have hmemrL : ∀ r ∈ runs, ∀ x ∈ r, x ∈ L := by
      intro r hr x hx
      have h1 : x ∈ (chunkRuns photos L).flatten :=
        List.mem_flatten.mpr ⟨r, hmemrunchunk r hr, hx⟩
      rwa [chunkRuns_flatten photos L] at h1
    have hbounds : ∀ r ∈ runs, ∀ i ∈ r, i < photos.length := fun r hr i hi =>
      ((hmemL i).mp (hmemrL r hr i hi)).1
    have hnodups : ∀ r ∈ runs, r.Nodup := fun r hr =>
      hchunkdisj.2 r (hmemrunchunk r hr)
    have hnonnil : ∀ r ∈ runs, r ≠ [] := fun r hr =>
      chunkRuns_ne_nil photos L r (hmemrunchunk r hr)
    obtain ⟨hflen, hfout, hfin⟩ :=
      assignSeries_fold runs photos 0 hdisj hnodups hnonnil hbounds
    rw [hout]
    have hgval : ∀ t, t < runs.length → ∀ i ∈ runs.getD t [],
        ((runs.foldl assignSeries (photos, 0)).1.getD i default).series_group =
          (t : ℤ) := by
      intro t ht i hi
      rw [(hfin t ht i hi).1]
      ring
    have hginrun : ∀ i, i < photos.length →
        0 ≤ ((runs.foldl assignSeries (photos, 0)).1.getD i default).series_group →
        ∃ t, t < runs.length ∧ i ∈ runs.getD t [] := by
      intro i hi hg
      by_contra hcon
      push_neg at hcon
      have hnot : ∀ r ∈ runs, i ∉ r := by
        intro r hr hmem
        rcases List.mem_iff_getElem.mp hr with ⟨t, ht, hrt⟩
        exact hcon t ht (by rw [List.getD_eq_getElem runs [] ht, hrt]; exact hmem)
      rw [hfout i hnot, (Hd i hi).1] at hg
      omega
    unfold SeriesSpec
    refine ⟨?_, ?_, ?_, ?_, ?_, ?_⟩
    · -- untimed photos untouched
      intro i hi hti
      refine hfout i ?_
      intro r hr hmem
      exact ((hmemL i).mp (hmemrL r hr i hmem)).2 hti
    · -- photos within the gap threshold share a non-negative group
      have key : ∀ pi pj, pj < L.length → pi ≤ pj →
          L.getD pi 0 ≠ L.getD pj 0 →
          |tsVal photos (L.getD pj 0) - tsVal photos (L.getD pi 0)| ≤
            SERIES_GAP_SECONDS →
          ∃ m : ℕ,
            ((runs.foldl assignSeries (photos, 0)).1.getD (L.getD pi 0)
              default).series_group = (m : ℤ) ∧
            ((runs.foldl assignSeries (photos, 0)).1.getD (L.getD pj 0)
              default).series_group = (m : ℤ) := by
        intro pi pj hpj hple hne habs
        have hgap : tsVal photos (L.getD pj 0) - tsVal photos (L.getD pi 0) ≤
            SERIES_GAP_SECONDS := le_trans (le_abs_self _) habs
        obtain ⟨r, hrchunk, hmi, hmj⟩ := chunkRuns_join photos L hLnd hLsorted
          (pj - pi) pi pj hpj hple rfl hgap
        have h2 : 2 ≤ r.length := two_le_length_of_mem_ne hmi hmj hne
        have hrmem : r ∈ runs := by
          rw [hruns]
          exact List.mem_filter.mpr ⟨hrchunk, by simpa using h2⟩
        rcases List.mem_iff_getElem.mp hrmem with ⟨t, ht, hrt⟩
        have hrget : runs.getD t [] = r := by
          rw [List.getD_eq_getElem runs [] ht, hrt]
        exact ⟨t, hgval t ht _ (by rw [hrget]; exact hmi),
          hgval t ht _ (by rw [hrget]; exact hmj)⟩
      intro i j hi hj hne hti htj habs
      rcases List.mem_iff_getElem.mp ((hmemL i).mpr ⟨hi, hti⟩) with ⟨pi, hpi, hLi⟩
      rcases List.mem_iff_getElem.mp ((hmemL j).mpr ⟨hj, htj⟩) with ⟨pj, hpj, hLj⟩
      have hgi : L.getD pi 0 = i := by rw [List.getD_eq_getElem L 0 hpi, hLi]
      have hgj : L.getD pj 0 = j := by rw [List.getD_eq_getElem L 0 hpj, hLj]
      rcases le_total pi pj with hle | hle
      · obtain ⟨m, h1, h2⟩ := key pi pj hpj hle (by rw [hgi, hgj]; exact hne)
          (by rw [hgi, hgj]; exact habs)
        rw [hgi] at h1
        rw [hgj] at h2
        exact ⟨m, h1, h2⟩
      · obtain ⟨m, h1, h2⟩ := key pj pi hpi hle (by rw [hgi, hgj]; exact hne.symm)
          (by rw [hgi, hgj, abs_sub_comm]; exact habs)
        rw [hgj] at h1
        rw [hgi] at h2
        exact ⟨m, h2, h1⟩
    · -- a shared group's time span has no uncovered point
      intro i j hi hj hti htj hgi hgij hts u hu1 hu2
      obtain ⟨t, ht, hit⟩ := hginrun i hi hgi
      obtain ⟨t', ht', hjt⟩ := hginrun j hj (by rw [← hgij]; exact hgi)
      have hvi := hgval t ht i hit
      have hvj := hgval t' ht' j hjt
      have htt : t = t' := by
        rw [hvi, hvj] at hgij
        exact_mod_cast hgij
      subst htt
      have hrmem : runs.getD t [] ∈ runs := by
        rw [List.getD_eq_getElem runs [] ht]
        exact List.getElem_mem ht
      have hchain := chunkRuns_chain photos L _ (hmemrunchunk _ hrmem)
      have hsorted' : (runs.getD t []).Pairwise
          (fun a b => tsVal photos a ≤ tsVal photos b) :=
        hLsorted.sublist (chunkRuns_sublist photos L _ (hmemrunchunk _ hrmem))
      obtain ⟨k, hk, hk1, hk2⟩ :=
        run_cover photos u _ hchain hsorted' i hit j hjt hu1 hu2
      rcases (hmemL k).mp (hmemrL _ hrmem k hk) with ⟨hkn, hkt⟩
      exact ⟨k, hkn, hkt, hk1, hk2⟩
    · -- emitted groups: size ≥ 2, scores, and the unique best member
      intro i hi hgi
      obtain ⟨t, ht, hit⟩ := hginrun i hi hgi
      have hrmem : runs.getD t [] ∈ runs := by
        rw [List.getD_eq_getElem runs [] ht]
        exact List.getElem_mem ht
      have h2 := hrun2 _ hrmem
      have hnd := hnodups _ hrmem
      have hvi := hgval t ht i hit
      have hmembers : ∀ j, j < photos.length →
          ((runs.foldl assignSeries (photos, 0)).1.getD j default).series_group =
            ((runs.foldl assignSeries (photos, 0)).1.getD i default).series_group →
          j ∈ runs.getD t [] := by
        intro j hj hgj
        obtain ⟨t2, ht2, hjt2⟩ := hginrun j hj (by rw [hgj]; exact hgi)
        have hvj := hgval t2 ht2 j hjt2
        have hc : (t2 : ℤ) = (t : ℤ) := by rw [← hvj, hgj, hvi]
        have ht2t : t2 = t := by exact_mod_cast hc
        rw [← ht2t]
        exact hjt2
      obtain ⟨e1, e2, e3, e4⟩ := hfin t ht i hit
      rw [(Hd i hi).2.1] at e2
      have hrord : (runs.getD t []).Pairwise
          (fun a b => tsVal photos a < tsVal photos b ∨
            (tsVal photos a = tsVal photos b ∧ a < b)) :=
        hLord.sublist (chunkRuns_sublist photos L _ (hmemrunchunk _ hrmem))
      have hprop : argmaxSharp photos (runs.getD t []) ∈ runs.getD t [] ∧
          ∀ j' ∈ runs.getD t [],
            sharpnessOf photos j' ≤
              sharpnessOf photos (argmaxSharp photos (runs.getD t [])) ∧
            (sharpnessOf photos j' =
              sharpnessOf photos (argmaxSharp photos (runs.getD t [])) →
              argmaxSharp photos (runs.getD t []) = j' ∨
                (tsVal photos (argmaxSharp photos (runs.getD t [])) < tsVal photos j' ∨
                  (tsVal photos (argmaxSharp photos (runs.getD t [])) = tsVal photos j' ∧
                    argmaxSharp photos (runs.getD t []) < j'))) := by
        rcases hE : runs.getD t [] with _ | ⟨m, ms⟩
        · rw [hE] at h2
          simp at h2
        · have hres := argmaxSharp_first photos
            (fun a b => tsVal photos a < tsVal photos b ∨
              (tsVal photos a = tsVal photos b ∧ a < b)) ms m (by rw [← hE]; exact hrord)
          dsimp only at hres
          exact hres
      obtain ⟨j, hjr, hjne⟩ := exists_ne_mem hnd h2 hit
      refine ⟨⟨j, hbounds _ hrmem j hjr, hjne, ?_⟩, ?_, ?_⟩
      · rw [hgval t ht j hjr, hvi]
      · rw [e3, e2]
        by_cases hib : i = argmaxSharp photos (runs.getD t [])
        · rw [if_pos hib, if_pos hib]
          simp
        · rw [if_neg hib, if_neg hib]
          simp
      · rw [e2]
        by_cases hib : i = argmaxSharp photos (runs.getD t [])
        · rw [if_pos hib]
          refine ⟨fun _ j' hj' hgj' => ?_, fun _ => rfl⟩
          have hj'r := hmembers j' hj' hgj'
          obtain ⟨hle, hfirst⟩ := hprop.2 j' hj'r
          rw [← hib] at hle hfirst
          refine ⟨hle, fun heq => ?_⟩
          rcases hfirst heq with heq2 | hord
          · exact Or.inl heq2
          · exact Or.inr hord
        · rw [if_neg hib]
          refine ⟨fun h => absurd h (by simp), fun hall => absurd ?_ hib⟩
          have hbmem := hprop.1
          have hbn : argmaxSharp photos (runs.getD t []) < photos.length :=
            hbounds _ hrmem _ hbmem
          have hgb : ((runs.foldl assignSeries (photos, 0)).1.getD
              (argmaxSharp photos (runs.getD t [])) default).series_group =
              ((runs.foldl assignSeries (photos, 0)).1.getD i default).series_group := by
            rw [hgval t ht _ hbmem, hvi]
          obtain ⟨hba, hbf⟩ := hall _ hbn hgb
          obtain ⟨hab, haf⟩ := hprop.2 i hit
          have hse : sharpnessOf photos (argmaxSharp photos (runs.getD t [])) =
              sharpnessOf photos i := le_antisymm hba hab
          rcases hbf hse with heq2 | hord1
          · exact heq2
          · rcases haf hse.symm with heq3 | hord2
            · exact heq3.symm
            · exact (ord_asymm photos hord2 hord1).elim
    · -- group −1 means the record was untouched
      intro i hi hg
      by_cases hin : ∀ r ∈ runs, i ∉ r
      · exact hfout i hin
      · exfalso
        push_neg at hin
        obtain ⟨r, hr, hmem⟩ := hin
        rcases List.mem_iff_getElem.mp hr with ⟨t, ht, hrt⟩
        have hmem' : i ∈ runs.getD t [] := by
          rw [List.getD_eq_getElem runs [] ht, hrt]
          exact hmem
        rw [hgval t ht i hmem'] at hg
        omega
    · -- photos with no close-enough neighbor are untouched
      intro i hi hti hisol
      have hnotin : ∀ r ∈ runs, i ∉ r := by
        intro r hr hmem
        obtain ⟨j, hjr, hjne, hjd⟩ := run_neighbor photos r
          (chunkRuns_chain photos L r (hmemrunchunk r hr))
          (hLsorted.sublist (chunkRuns_sublist photos L r (hmemrunchunk r hr)))
          (hnodups r hr) (hrun2 r hr) i hmem
        rcases (hmemL j).mp (hmemrL r hr j hjr) with ⟨hjn, hjt⟩
        exact hisol j hjn hjne hjt hjd
      refine ⟨hfout i hnotin, ?_⟩
      rw [hfout i hnotin, (Hd i hi).1]

theorem wSeriesPhotos_defaults : ∀ p ∈ wSeriesPhotos,
    p.series_group = -1 ∧ p.is_best_in_series = false ∧ p.series_score = 0.5 := by
  intro p hp
  fin_cases hp <;> exact ⟨rfl, rfl, rfl⟩

theorem c5_witness :
    (∀ p ∈ wSeriesPhotos,
      p.series_group = -1 ∧ p.is_best_in_series = false ∧ p.series_score = 0.5) ∧
    SeriesSpec wSeriesPhotos (group_into_series wSeriesPhotos) :=
  ⟨wSeriesPhotos_defaults, c5_group_into_series wSeriesPhotos wSeriesPhotos_defaults⟩

/-! ### Union-find core lemmas (claim C4) -/

theorem iterP_succ_right (parent : List ℕ) :
    ∀ (k x : ℕ), iterP parent (k + 1) x = parentOf parent (iterP parent k x) := by
  intro k
  induction k with
  | zero => intro x; rfl
  | succ k ih =>
    intro x
    show iterP parent (k + 1) (parentOf parent x) = _
    rw [ih (parentOf parent x)]
    rfl

theorem iterP_add (parent : List ℕ) :
    ∀ (j k x : ℕ), iterP parent (j + k) x = iterP parent k (iterP parent j x) := by
  intro j
  induction j with
  | zero =>
    intro k x
    rw [Nat.zero_add]
    rfl
  | succ j ih =>
    intro k x
    rw [show j + 1 + k = (j + k) + 1 by omega]
    show iterP parent (j + k) (parentOf parent x) = _
    rw [ih k (parentOf parent x)]
    rfl

theorem iterP_root (parent : List ℕ) :
    ∀ (k x : ℕ), isRootP parent x → iterP parent k x = x := by
  intro k
  induction k with
  | zero => intro x _; rfl
  | succ k ih =>
    intro x hx
    show iterP parent k (parentOf parent x) = x
    rw [hx]
    exact ih x hx

theorem iterP_lt (n : ℕ) (parent : List ℕ) (hb : ∀ x, x < n → parentOf parent x < n) :
    ∀ (k x : ℕ), x < n → iterP parent k x < n := by
  intro k
  induction k with
  | zero => intro x hx; exact hx
  | succ k ih => intro x hx; exact ih (parentOf parent x) (hb x hx)

theorem rank_chain (n : ℕ) (uf : UnionFind) (h : UFInv n uf) :
    ∀ (k x : ℕ), x < n →
      (∀ m, m < k → ¬ isRootP uf.parent (iterP uf.parent m x)) →
      uf.rank.getD x 0 + k ≤ uf.rank.getD (iterP uf.parent k x) 0 := by
  intro k
  induction k with
  | zero =>
    intro x _ _
    show uf.rank.getD x 0 + 0 ≤ uf.rank.getD x 0
    omega
  | succ k ih =>
    intro x hx hnr
    have h0 : ¬ isRootP uf.parent x := hnr 0 (by omega)
    have hru : uf.rank.getD x 0 < uf.rank.getD (parentOf uf.parent x) 0 :=
      h.2.2.2 x hx h0
    have hstep : parentOf uf.parent x < n := h.2.2.1 x hx
    have ih' := ih (parentOf uf.parent x) hstep (fun m hm => hnr (m + 1) (by omega))
    show uf.rank.getD x 0 + (k + 1) ≤ uf.rank.getD (iterP uf.parent k (parentOf uf.parent x)) 0
    omega

theorem reach_root (n : ℕ) (uf : UnionFind) (h : UFInv n uf) :
    ∀ x, x < n → ∃ m, m ≤ n ∧ isRootP uf.parent (iterP uf.parent m x) := by
  intro x hx
  by_contra hcon
  push_neg at hcon
  have key : ∀ (a b : ℕ), a < b → b ≤ n →
      iterP uf.parent a x = iterP uf.parent b x → False := by
    intro a b hab hbn hiter
    have hchain := rank_chain n uf h (b - a) (iterP uf.parent a x)
      (iterP_lt n uf.parent h.2.2.1 a x hx)
      (fun m hm => by
        rw [← iterP_add uf.parent a m x]
        exact hcon (a + m) (by omega))
    rw [← iterP_add uf.parent a (b - a) x, show a + (b - a) = b by omega,
      ← hiter] at hchain
    omega
  have hmaps : ∀ m ∈ Finset.range (n + 1),
      iterP uf.parent m x ∈ Finset.range n := by
    intro m _
    exact Finset.mem_range.mpr (iterP_lt n uf.parent h.2.2.1 m x hx)
  have hcard : (Finset.range n).card < (Finset.range (n + 1)).card := by simp
  obtain ⟨a, ha, b, hb, hne, heq⟩ :=
    Finset.exists_ne_map_eq_of_card_lt_of_maps_to hcard hmaps
  rcases Nat.lt_or_ge a b with hab | hab
  · exact key a b hab (by have := Finset.mem_range.mp hb; omega) heq
  · have hba : b < a := by omega
    exact key b a hba (by have := Finset.mem_range.mp ha; omega) heq.symm

theorem findAux_eq_iterP (parent : List ℕ) :
    ∀ (f x : ℕ), (∃ m, m ≤ f ∧ isRootP parent (iterP parent m x)) →
      findAux parent f x = iterP parent f x := by
  intro f
  induction f with
  | zero => intro x _; rfl
  | succ f ih =>
    intro x hex
    by_cases hr : parentOf parent x = x
    · rw [findAux, if_pos hr]
      rw [iterP_root parent (f + 1) x hr]
    · rw [findAux, if_neg hr]
      show findAux parent f (parentOf parent x) = iterP parent f (parentOf parent x)
      apply ih
      obtain ⟨m, hm, hroot⟩ := hex
      match m, hroot with
      | 0, hroot => exact absurd hroot hr
      | m + 1, hroot => exact ⟨m, by omega, hroot⟩

theorem find_eq_rootN (n : ℕ) (uf : UnionFind) (h : UFInv n uf) (x : ℕ)
    (hx : x < n) : uf.find x = rootN uf.parent n x := by
  unfold UnionFind.find rootN
  rw [h.1]
  exact findAux_eq_iterP uf.parent n x (reach_root n uf h x hx)

theorem rootN_isRoot (n : ℕ) (uf : UnionFind) (h : UFInv n uf) (x : ℕ)
    (hx : x < n) : isRootP uf.parent (rootN uf.parent n x) := by
  obtain ⟨m, hm, hroot⟩ := reach_root n uf h x hx
  unfold rootN
  rw [show n = m + (n - m) by omega, iterP_add,
    iterP_root uf.parent (n - m) _ hroot]
  exact hroot

theorem rootN_lt (n : ℕ) (uf : UnionFind) (h : UFInv n uf) (x : ℕ) (hx : x < n) :
    rootN uf.parent n x < n :=
  iterP_lt n uf.parent h.2.2.1 n x hx

theorem rootN_of_isRoot (parent : List ℕ) (n x : ℕ) (h : isRootP parent x) :
    rootN parent n x = x :=
  iterP_root parent n x h

theorem rootN_parent (n : ℕ) (uf : UnionFind) (h : UFInv n uf) (x : ℕ)
    (hx : x < n) :
    rootN uf.parent n (parentOf uf.parent x) = rootN uf.parent n x := by
  unfold rootN
  show iterP uf.parent (n + 1) x = iterP uf.parent n x
  rw [iterP_succ_right]
  exact rootN_isRoot n uf h x hx

theorem rootN_rootN (n : ℕ) (uf : UnionFind) (h : UFInv n uf) (x : ℕ)
    (hx : x < n) :
    rootN uf.parent n (rootN uf.parent n x) = rootN uf.parent n x :=
  rootN_of_isRoot uf.parent n _ (rootN_isRoot n uf h x hx)

theorem getD_set_ne (l : List ℕ) (i v x d : ℕ) (h : x ≠ i) :
    (l.set i v).getD x d = l.getD x d := by
  rw [List.getD_eq_getElem?_getD, List.getD_eq_getElem?_getD,
    List.getElem?_set_ne (fun hh => h hh.symm)]

theorem getD_set_self (l : List ℕ) (i v d : ℕ) (h : i < l.length) :
    (l.set i v).getD i d = v := by
  rw [List.getD_eq_getElem?_getD, List.getElem?_set_self h]
  rfl

/-- Attaching the root `ry` beneath the root `rx` preserves the union-find
invariant, provided the rank array update keeps the rank strictly increasing
along the new link. -/
theorem link_inv (n : ℕ) (uf : UnionFind) (h : UFInv n uf) (rx ry : ℕ)
    (hrx : isRootP uf.parent rx) (hryn : ry < n) (hrxn : rx < n) (hne : ry ≠ rx)
    (rank' : List ℕ) (hlen : rank'.length = n)
    (hge : ∀ z, z < n → uf.rank.getD z 0 ≤ rank'.getD z 0)
    (heqz : ∀ z, z < n → z ≠ rx → rank'.getD z 0 = uf.rank.getD z 0)
    (hup : rank'.getD ry 0 < rank'.getD rx 0) :
    UFInv n ⟨uf.parent.set ry rx, rank'⟩ := by
  obtain ⟨hp, hr, hb, hk⟩ := h
  refine ⟨by rw [List.length_set]; exact hp, hlen, ?_, ?_⟩
  · intro z hz
    by_cases hzy : z = ry
    · subst hzy
      show (uf.parent.set z rx).getD z z < n
      rw [getD_set_self uf.parent z rx z (by rw [hp]; exact hz)]
      exact hrxn
    · show (uf.parent.set ry rx).getD z z < n
      rw [getD_set_ne uf.parent ry rx z z hzy]
      exact hb z hz
  · intro z hz hnr
    by_cases hzy : z = ry
    · subst hzy
      have hpz : parentOf (uf.parent.set z rx) z = rx := by
        show (uf.parent.set z rx).getD z z = rx
        exact getD_set_self uf.parent z rx z (by rw [hp]; exact hz)
      rw [hpz]
      exact hup
    · have hpz : parentOf (uf.parent.set ry rx) z = parentOf uf.parent z :=
        getD_set_ne uf.parent ry rx z z hzy
      have hnr2 : parentOf (uf.parent.set ry rx) z ≠ z := hnr
      rw [hpz] at hnr2
      show rank'.getD z 0 < rank'.getD (parentOf (uf.parent.set ry rx) z) 0
      rw [hpz]
      by_cases hzx : z = rx
      · exfalso
        subst hzx
        exact hnr2 hrx
      · rw [heqz z hz hzx]
        have h1 := hk z hz hnr2
        have h2 := hge (parentOf uf.parent z) (hb z hz)
        omega

/-- After attaching root `ry` beneath root `rx`, the root of `z` is `rx` if
its old root was `ry`, and unchanged otherwise. -/
theorem link_root_char (n : ℕ) (uf : UnionFind) (h : UFInv n uf) (rx ry : ℕ)
    (hrx : isRootP uf.parent rx) (hry : isRootP uf.parent ry)
    (hryn : ry < n) (hrxn : rx < n) (hne : ry ≠ rx)
    (rank' : List ℕ) (hinv' : UFInv n ⟨uf.parent.set ry rx, rank'⟩) :
    ∀ z, z < n → rootN (uf.parent.set ry rx) n z =
      (if rootN uf.parent n z = ry then rx else rootN uf.parent n z) := by
  set uf' : UnionFind := ⟨uf.parent.set ry rx, rank'⟩ with hufdef
  have hparent' : uf'.parent = uf.parent.set ry rx := rfl
  have hbase : ∀ z, z < n → isRootP uf.parent z →
      rootN uf'.parent n z = (if rootN uf.parent n z = ry then rx else rootN uf.parent n z) := by
    intro z hz hr
    rw [rootN_of_isRoot uf.parent n z hr]
    by_cases hzy : z = ry
    · subst hzy
      rw [if_pos rfl]
      have hpz : parentOf uf'.parent z = rx := by
        show (uf.parent.set z rx).getD z z = rx
        exact getD_set_self uf.parent z rx z (by rw [h.1]; exact hz)
      have hrx' : isRootP uf'.parent rx := by
        show parentOf uf'.parent rx = rx
        rw [hparent', parentOf, getD_set_ne uf.parent z rx rx rx (fun he => hne he.symm)]
        exact hrx
      rw [← rootN_parent n uf' hinv' z hz, hpz]
      exact rootN_of_isRoot uf'.parent n rx hrx'
    · rw [if_neg hzy]
      have hr' : isRootP uf'.parent z := by
        show parentOf uf'.parent z = z
        rw [hparent', parentOf, getD_set_ne uf.parent ry rx z z hzy]
        exact hr
      exact rootN_of_isRoot uf'.parent n z hr'
  have main : ∀ m z, z < n → isRootP uf.parent (iterP uf.parent m z) →
      rootN uf'.parent n z =
        (if rootN uf.parent n z = ry then rx else rootN uf.parent n z) := by
    intro m
    induction m with
    | zero => intro z hz hroot; exact hbase z hz hroot
    | succ m ih =>
      intro z hz hroot
      by_cases hr : isRootP uf.parent z
      · exact hbase z hz hr
      · have hzy : z ≠ ry := by
          intro he
          subst he
          exact hr hry
        have hpz : parentOf uf'.parent z = parentOf uf.parent z := by
          rw [hparent', parentOf]
          exact getD_set_ne uf.parent ry rx z z hzy
        have hzn : parentOf uf.parent z < n := h.2.2.1 z hz
        have hnew := ih (parentOf uf.parent z) hzn hroot
        rw [← rootN_parent n uf' hinv' z hz, hpz, hnew,
          rootN_parent n uf h z hz]
  intro z hz
  obtain ⟨m, _, hroot⟩ := reach_root n uf h z hz
  exact main m z hz hroot

/-- What `UnionFind.union` does to the forest: the invariant is preserved,
the two arguments end up with one root, old equalities of roots survive, and
every root is one of the old roots. -/
theorem union_spec (n : ℕ) (uf : UnionFind) (h : UFInv n uf) (x y : ℕ)
    (hx : x < n) (hy : y < n) :
    UFInv n (uf.union x y) ∧
    rootN (uf.union x y).parent n x = rootN (uf.union x y).parent n y ∧
    (∀ z w, z < n → w < n → rootN uf.parent n z = rootN uf.parent n w →
      rootN (uf.union x y).parent n z = rootN (uf.union x y).parent n w) ∧
    (∀ z, z < n → rootN (uf.union x y).parent n z = rootN uf.parent n z ∨
      rootN (uf.union x y).parent n z = rootN uf.parent n x ∨
      rootN (uf.union x y).parent n z = rootN uf.parent n y) ∧
    (∀ z, z < n → rootN uf.parent n z ≠ rootN uf.parent n x →
      rootN uf.parent n z ≠ rootN uf.parent n y →
      rootN (uf.union x y).parent n z = rootN uf.parent n z) := by
  have hfx := find_eq_rootN n uf h x hx
  have hfy := find_eq_rootN n uf h y hy
  by_cases heq : uf.find x = uf.find y
  · have hu : uf.union x y = uf := by
      unfold UnionFind.union
      rw [if_pos heq]
    rw [hu]
    exact ⟨h, by rw [← hfx, ← hfy, heq], fun z w _ _ hzw => hzw,
      fun z hz => Or.inl rfl, fun z _ _ _ => rfl⟩
  · have hrxr : isRootP uf.parent (rootN uf.parent n x) := rootN_isRoot n uf h x hx
    have hryr : isRootP uf.parent (rootN uf.parent n y) := rootN_isRoot n uf h y hy
    have hrxn : rootN uf.parent n x < n := rootN_lt n uf h x hx
    have hryn : rootN uf.parent n y < n := rootN_lt n uf h y hy
    have hrne : rootN uf.parent n x ≠ rootN uf.parent n y := by
      rw [← hfx, ← hfy]
      exact heq
    -- the two orientations of the link
    have hkey : ∀ (keep child : ℕ), isRootP uf.parent keep → isRootP uf.parent child →
        keep < n → child < n → child ≠ keep →
        (keep = rootN uf.parent n x ∨ keep = rootN uf.parent n y) →
        (child = rootN uf.parent n x ∨ child = rootN uf.parent n y) →
        ∀ (rank' : List ℕ), UFInv n ⟨uf.parent.set child keep, rank'⟩ →
        UFInv n ⟨uf.parent.set child keep, rank'⟩ ∧
        rootN (uf.parent.set child keep) n x = rootN (uf.parent.set child keep) n y ∧
        (∀ z w, z < n → w < n → rootN uf.parent n z = rootN uf.parent n w →
          rootN (uf.parent.set child keep) n z = rootN (uf.parent.set child keep) n w) ∧
        (∀ z, z < n → rootN (uf.parent.set child keep) n z = rootN uf.parent n z ∨
          rootN (uf.parent.set child keep) n z = rootN uf.parent n x ∨
          rootN (uf.parent.set child keep) n z = rootN uf.parent n y) ∧
        (∀ z, z < n → rootN uf.parent n z ≠ rootN uf.parent n x →
          rootN uf.parent n z ≠ rootN uf.parent n y →
          rootN (uf.parent.set child keep) n z = rootN uf.parent n z) := by
      intro keep child hkr hcr hkn hcn hcne hkor hcor rank' hinv'
      have hchar := link_root_char n uf h keep child hkr hcr hcn hkn hcne rank' hinv'
      have hrootx : rootN uf.parent n (rootN uf.parent n x) = rootN uf.parent n x :=
        rootN_rootN n uf h x hx
      have hrooty : rootN uf.parent n (rootN uf.parent n y) = rootN uf.parent n y :=
        rootN_rootN n uf h y hy
      refine ⟨hinv', ?_, ?_, ?_, ?_⟩
      · rw [hchar x hx, hchar y hy]
        rcases hkor with hk | hk <;> rcases hcor with hc | hc
        · exact absurd (hc.trans hk.symm) hcne
        · rw [if_neg (by rw [hc]; exact hrne), if_pos (by rw [hc]), hk]
        · rw [if_pos (by rw [hc]), if_neg (by rw [hc]; exact fun he => hrne he.symm), hk]
        · exact absurd (hc.trans hk.symm) hcne
      · intro z w hz hw hzw
        rw [hchar z hz, hchar w hw, hzw]
      · intro z hz
        rw [hchar z hz]
        by_cases hc : rootN uf.parent n z = child
        · rw [if_pos hc]
          rcases hkor with hk | hk
          · exact Or.inr (Or.inl hk)
          · exact Or.inr (Or.inr hk)
        · rw [if_neg hc]
          exact Or.inl rfl
      · intro z hz hnx hny
        rw [hchar z hz]
        rw [if_neg ?_]
        rcases hcor with hc | hc
        · rw [hc]
          exact hnx
        · rw [hc]
          exact hny
    -- unfold union in the merge case
    have hunion : uf.union x y =
        (let rk : ℕ → ℕ := fun z => uf.rank.getD z 0
         let p : ℕ × ℕ :=
           if rk (uf.find x) < rk (uf.find y) then (uf.find y, uf.find x)
           else (uf.find x, uf.find y)
         let parent := uf.parent.set p.2 p.1
         let rank := if rk p.1 = rk p.2 then uf.rank.set p.1 (rk p.1 + 1) else uf.rank
         (⟨parent, rank⟩ : UnionFind)) := by
      unfold UnionFind.union
      rw [if_neg heq]
    rw [hunion]
    dsimp only
    by_cases hor : uf.rank.getD (uf.find x) 0 < uf.rank.getD (uf.find y) 0
    · rw [if_pos hor]
      dsimp only
      have hkeep : uf.find y = rootN uf.parent n y := hfy
      have hchild : uf.find x = rootN uf.parent n x := hfx
      rw [hkeep, hchild]
      have hrkne : ¬ uf.rank.getD (rootN uf.parent n y) 0 =
          uf.rank.getD (rootN uf.parent n x) 0 := by
        rw [← hkeep, ← hchild]
        omega
      rw [if_neg hrkne]
      refine hkey (rootN uf.parent n y) (rootN uf.parent n x) hryr hrxr hryn hrxn
        hrne (Or.inr rfl) (Or.inl rfl) uf.rank ?_
      refine link_inv n uf h (rootN uf.parent n y) (rootN uf.parent n x) hryr hrxn
        hryn hrne uf.rank h.2.1 (fun z _ => le_rfl) (fun z _ _ => rfl) ?_
      rw [← hkeep, ← hchild]
      exact hor
    · rw [if_neg hor]
      dsimp only
      rw [hfx, hfy]
      have hrk : uf.rank.getD (rootN uf.parent n y) 0 ≤
          uf.rank.getD (rootN uf.parent n x) 0 := by
        rw [← hfx, ← hfy]
        omega
      by_cases hreq : uf.rank.getD (rootN uf.parent n x) 0 =
          uf.rank.getD (rootN uf.parent n y) 0
      · rw [if_pos hreq]
        have hrkn : rootN uf.parent n x < uf.rank.length := by
          rw [h.2.1]
          exact hrxn
        refine hkey (rootN uf.parent n x) (rootN uf.parent n y) hrxr hryr hrxn hryn
          (fun he => hrne he.symm) (Or.inl rfl) (Or.inr rfl) _ ?_
        refine link_inv n uf h (rootN uf.parent n x) (rootN uf.parent n y) hrxr hryn
          hrxn (fun he => hrne he.symm) _ (by rw [List.length_set]; exact h.2.1)
          ?_ ?_ ?_
        · intro z hz
          by_cases hzx : z = rootN uf.parent n x
          · subst hzx
            rw [getD_set_self uf.rank _ _ 0 hrkn]
            omega
          · rw [getD_set_ne uf.rank _ _ z 0 hzx]
        · intro z hz hzx
          rw [getD_set_ne uf.rank _ _ z 0 hzx]
        · rw [getD_set_self uf.rank _ _ 0 hrkn,
            getD_set_ne uf.rank _ _ _ 0 (fun he => hrne he.symm), hreq]
          omega
      · rw [if_neg hreq]
        refine hkey (rootN uf.parent n x) (rootN uf.parent n y) hrxr hryr hrxn hryn
          (fun he => hrne he.symm) (Or.inl rfl) (Or.inr rfl) uf.rank ?_
        refine link_inv n uf h (rootN uf.parent n x) (rootN uf.parent n y) hrxr hryn
          hrxn (fun he => hrne he.symm) uf.rank h.2.1 (fun z _ => le_rfl)
          (fun z _ _ => rfl) ?_
        omega

theorem parentOf_init (n x : ℕ) (hx : x < n) :
    parentOf (UnionFind.init n).parent x = x := by
  show (List.range n).getD x x = x
  rw [List.getD_eq_getElem?_getD, List.getElem?_range hx]
  rfl

theorem init_inv (n : ℕ) : UFInv n (UnionFind.init n) := by
  refine ⟨List.length_range n, List.length_replicate n 0, ?_, ?_⟩
  · intro x hx
    rw [parentOf_init n x hx]
    exact hx
  · intro x hx hne
    exact absurd (parentOf_init n x hx) hne

theorem init_root (n x : ℕ) (hx : x < n) :
    rootN (UnionFind.init n).parent n x = x :=
  rootN_of_isRoot _ n x (parentOf_init n x hx)

/-- The inner loop of `unionPairs` (one photo against the tail). -/
theorem innerFold_spec (photos : List PhotoInfo) (n : ℕ) (a : ℕ) (ha : a < n) :
    ∀ (bs : List ℕ) (uf : UnionFind), UFInv n uf → (∀ b ∈ bs, b < n) →
      UFInv n (bs.foldl
        (fun uf b => if hammingOf photos a b ≤ DHASH_THRESHOLD then uf.union a b else uf)
        uf) ∧
      (∀ z w, z < n → w < n → rootN uf.parent n z = rootN uf.parent n w →
        rootN (bs.foldl
          (fun uf b => if hammingOf photos a b ≤ DHASH_THRESHOLD then uf.union a b else uf)
          uf).parent n z =
        rootN (bs.foldl
          (fun uf b => if hammingOf photos a b ≤ DHASH_THRESHOLD then uf.union a b else uf)
          uf).parent n w) ∧
      (∀ b ∈ bs, hammingOf photos a b ≤ DHASH_THRESHOLD →
        rootN (bs.foldl
          (fun uf b => if hammingOf photos a b ≤ DHASH_THRESHOLD then uf.union a b else uf)
          uf).parent n a =
        rootN (bs.foldl
          (fun uf b => if hammingOf photos a b ≤ DHASH_THRESHOLD then uf.union a b else uf)
          uf).parent n b) ∧
      (∀ i, i < n → rootN uf.parent n i = i →
        (∀ j, j < n → j ≠ i → rootN uf.parent n j ≠ i) →
        (∀ b ∈ bs, (a ≠ i ∧ b ≠ i) ∨ ¬ hammingOf photos a b ≤ DHASH_THRESHOLD) →
        rootN (bs.foldl
          (fun uf b => if hammingOf photos a b ≤ DHASH_THRESHOLD then uf.union a b else uf)
          uf).parent n i = i ∧
        (∀ j, j < n → j ≠ i →
          rootN (bs.foldl
            (fun uf b => if hammingOf photos a b ≤ DHASH_THRESHOLD then uf.union a b else uf)
            uf).parent n j ≠ i)) := by
  intro bs
  induction bs with
  | nil =>
    intro uf hinv _
    exact ⟨hinv, fun z w _ _ hzw => hzw, fun b hb => absurd hb (List.not_mem_nil b),
      fun i _ h1 h2 _ => ⟨h1, h2⟩⟩
  | cons b bs ih =>
    intro uf hinv hbs
    have hb : b < n := hbs b (List.mem_cons_self _ _)
    rw [List.foldl_cons]
    by_cases hham : hammingOf photos a b ≤ DHASH_THRESHOLD
    · rw [if_pos hham]
      obtain ⟨hinv1, hmerge, hmono1, hchoice, hkeep⟩ := union_spec n uf hinv a b ha hb
      obtain ⟨ih1, ih2, ih3, ih4⟩ := ih (uf.union a b) hinv1 (fun c hc =>
        hbs c (List.mem_cons_of_mem _ hc))
      refine ⟨ih1, ?_, ?_, ?_⟩
      · intro z w hz hw hzw
        exact ih2 z w hz hw (hmono1 z w hz hw hzw)
      · intro c hc hhamc
        rcases List.mem_cons.mp hc with rfl | hc'
        · exact ih2 a c ha hb hmerge
        · exact ih3 c hc' hhamc
      · intro i hi h1 h2 hcond
        rcases hcond b (List.mem_cons_self _ _) with ⟨hai, hbi⟩ | hcon
        · have h1' : rootN (uf.union a b).parent n i = i := by
            rw [hkeep i hi (fun he => h2 a ha hai ((h1 ▸ he).symm)) (fun he => h2 b hb hbi ((h1 ▸ he).symm))]
            exact h1
          have h2' : ∀ j, j < n → j ≠ i → rootN (uf.union a b).parent n j ≠ i := by
            intro j hj hji
            rcases hchoice j hj with hcz | hcz | hcz <;> rw [hcz]
            · exact h2 j hj hji
            · exact h2 a ha hai
            · exact h2 b hb hbi
          exact ih4 i hi h1' h2' (fun c hc => hcond c (List.mem_cons_of_mem _ hc))
        · exact absurd hham hcon
    · rw [if_neg hham]
      obtain ⟨ih1, ih2, ih3, ih4⟩ := ih uf hinv (fun c hc =>
        hbs c (List.mem_cons_of_mem _ hc))
      refine ⟨ih1, ih2, ?_, ?_⟩
      · intro c hc hhamc
        rcases List.mem_cons.mp hc with rfl | hc'
        · exact absurd hhamc hham
        · exact ih3 c hc' hhamc
      · intro i hi h1 h2 hcond
        exact ih4 i hi h1 h2 (fun c hc => hcond c (List.mem_cons_of_mem _ hc))

/-- The all-pairs union loop: the invariant is preserved, root equalities
survive, every threshold-close pair ends up with one root, and an index that
is in no threshold-close pair keeps its singleton class. -/
theorem unionPairs_spec (photos : List PhotoInfo) (n : ℕ) :
    ∀ (l : List ℕ) (uf : UnionFind), UFInv n uf → (∀ a ∈ l, a < n) →
      l.Pairwise (· < ·) →
      UFInv n (unionPairs photos uf l) ∧
      (∀ z w, z < n → w < n → rootN uf.parent n z = rootN uf.parent n w →
        rootN (unionPairs photos uf l).parent n z =
          rootN (unionPairs photos uf l).parent n w) ∧
      (∀ a b, a ∈ l → b ∈ l → a < b → hammingOf photos a b ≤ DHASH_THRESHOLD →
        rootN (unionPairs photos uf l).parent n a =
          rootN (unionPairs photos uf l).parent n b) ∧
      (∀ i, i < n → rootN uf.parent n i = i →
        (∀ j, j < n → j ≠ i → rootN uf.parent n j ≠ i) →
        (∀ a b, a ∈ l → b ∈ l → a ≠ b → hammingOf photos a b ≤ DHASH_THRESHOLD →
          a ≠ i ∧ b ≠ i) →
        rootN (unionPairs photos uf l).parent n i = i ∧
        (∀ j, j < n → j ≠ i → rootN (unionPairs photos uf l).parent n j ≠ i)) := by
  intro l
  induction l with
  | nil =>
    intro uf hinv _ _
    exact ⟨hinv, fun z w _ _ hzw => hzw, fun a b hab => absurd hab (List.not_mem_nil a),
      fun i _ h1 h2 _ => ⟨h1, h2⟩⟩
  | cons c rest ih =>
    intro uf hinv hl hpw
    rcases List.pairwise_cons.mp hpw with ⟨hcrest, hpw'⟩
    have hc : c < n := hl c (List.mem_cons_self _ _)
    have hrest : ∀ b ∈ rest, b < n := fun b hb => hl b (List.mem_cons_of_mem _ hb)
    obtain ⟨i1, i2, i3, i4⟩ := innerFold_spec photos n c hc rest uf hinv hrest
    rw [unionPairs]
    set uf1 := rest.foldl
      (fun uf b => if hammingOf photos c b ≤ DHASH_THRESHOLD then uf.union c b else uf)
      uf with huf1
    obtain ⟨o1, o2, o3, o4⟩ := ih uf1 i1 hrest hpw'
    refine ⟨o1, ?_, ?_, ?_⟩
    · intro z w hz hw hzw
      exact o2 z w hz hw (i2 z w hz hw hzw)
    · intro a b hal hbl hab hham
      have hbne : b ≠ c := fun he => by
        rcases List.mem_cons.mp hal with rfl | hal'
        · omega
        · have := hcrest a hal'
          omega
      have hbrest : b ∈ rest := by
        rcases List.mem_cons.mp hbl with he | hb'
        · exact absurd he hbne
        · exact hb'
      rcases List.mem_cons.mp hal with rfl | harest
      · exact o2 a b (hl a (List.mem_cons_self _ _)) (hrest b hbrest)
          (i3 b hbrest hham)
      · exact o3 a b harest hbrest hab hham
    · intro i hi h1 h2 hcond
      have hinner : ∀ b ∈ rest, (c ≠ i ∧ b ≠ i) ∨
          ¬ hammingOf photos c b ≤ DHASH_THRESHOLD := by
        intro b hb
        by_cases hham : hammingOf photos c b ≤ DHASH_THRESHOLD
        · exact Or.inl (hcond c b (List.mem_cons_self _ _) (List.mem_cons_of_mem _ hb)
            (by have := hcrest b hb; omega) hham)
        · exact Or.inr hham
      obtain ⟨k1, k2⟩ := i4 i hi h1 h2 hinner
      exact o4 i hi k1 k2 (fun a b hal hbl hab hham =>
        hcond a b (List.mem_cons_of_mem _ hal) (List.mem_cons_of_mem _ hbl) hab hham)

/-! ### The insertion-ordered group dictionary -/

theorem addToGroups_of_not_mem (gs : List (ℕ × List ℕ)) (root i : ℕ)
    (h : root ∉ gs.map Prod.fst) : addToGroups gs root i = gs ++ [(root, [i])] := by
  induction gs with
  | nil => rfl
  | cons e gs ih =>
    rw [List.map_cons] at h
    have h1 : e.1 ≠ root := fun he => h (by rw [he]; exact List.mem_cons_self _ _)
    show addToGroups (e :: gs) root i = _
    rw [show (e : ℕ × List ℕ) = (e.1, e.2) from rfl, addToGroups, if_neg h1]
    rw [ih (fun hm => h (List.mem_cons_of_mem _ hm))]
    rfl

theorem addToGroups_keys_of_mem (gs : List (ℕ × List ℕ)) (root i : ℕ)
    (h : root ∈ gs.map Prod.fst) :
    (addToGroups gs root i).map Prod.fst = gs.map Prod.fst := by
  induction gs with
  | nil => cases h
  | cons e gs ih =>
    show (addToGroups (e :: gs) root i).map Prod.fst = _
    rw [show (e : ℕ × List ℕ) = (e.1, e.2) from rfl, addToGroups]
    by_cases h1 : e.1 = root
    · rw [if_pos h1]
      rfl
    · rw [if_neg h1]
      rw [List.map_cons] at h
      rcases List.mem_cons.mp h with he | hm
      · exact absurd he.symm h1
      · rw [List.map_cons, ih hm]
        rfl

theorem addToGroups_mem_of_ne (gs : List (ℕ × List ℕ)) (root i : ℕ)
    (e : ℕ × List ℕ) (hne : e.1 ≠ root) :
    e ∈ addToGroups gs root i ↔ e ∈ gs := by
  induction gs with
  | nil =>
    show e ∈ [(root, [i])] ↔ e ∈ []
    constructor
    · intro h
      rcases List.mem_singleton.mp h with rfl
      exact absurd rfl hne
    · intro h
      cases h
  | cons g gs ih =>
    show e ∈ addToGroups (g :: gs) root i ↔ _
    rw [show (g : ℕ × List ℕ) = (g.1, g.2) from rfl, addToGroups]
    by_cases h1 : g.1 = root
    · rw [if_pos h1]
      constructor
      · intro h
        rcases List.mem_cons.mp h with he | hm
        · exfalso
          rw [he] at hne
          exact hne h1
        · exact List.mem_cons_of_mem _ hm
      · intro h
        rcases List.mem_cons.mp h with he | hm
        · exfalso
          rw [he] at hne
          exact hne h1
        · exact List.mem_cons_of_mem _ hm
    · rw [if_neg h1]
      rw [List.mem_cons, List.mem_cons, ih]

theorem addToGroups_mem_of_key (gs : List (ℕ × List ℕ)) (root i : ℕ) (ms : List ℕ)
    (hnd : (gs.map Prod.fst).Nodup) (hm : (root, ms) ∈ gs) :
    ∀ e, e ∈ addToGroups gs root i ↔ ((e ∈ gs ∧ e.1 ≠ root) ∨ e = (root, ms ++ [i])) := by
  induction gs with
  | nil => cases hm
  | cons g gs ih =>
    intro e
    rw [List.map_cons, List.nodup_cons] at hnd
    show e ∈ addToGroups (g :: gs) root i ↔ _
    rw [show (g : ℕ × List ℕ) = (g.1, g.2) from rfl, addToGroups]
    by_cases h1 : g.1 = root
    · rw [if_pos h1]
      have hgm : (g.1, g.2) = (root, ms) := by
        rcases List.mem_cons.mp hm with he | hmem
        · exact he.symm
        · exfalso
          have : root ∈ gs.map Prod.fst :=
            List.mem_map.mpr ⟨(root, ms), hmem, rfl⟩
          rw [← h1] at this
          exact hnd.1 this
      have hms : g.2 = ms := (Prod.mk.injEq _ _ _ _ |>.mp hgm).2
      rw [List.mem_cons]
      constructor
      · intro h
        rcases h with he | hmem
        · right
          rw [he, h1, hms]
        · left
          refine ⟨List.mem_cons_of_mem _ hmem, ?_⟩
          intro hek
          have : e.1 ∈ gs.map Prod.fst := List.mem_map.mpr ⟨e, hmem, rfl⟩
          rw [hek, ← h1] at this
          exact hnd.1 this
      · intro h
        rcases h with ⟨hmem, hne⟩ | he
        · rcases List.mem_cons.mp hmem with he2 | hmem2
          · exfalso
            rw [he2] at hne
            exact hne h1
          · exact Or.inr hmem2
        · left
          rw [he, h1, hms]
    · rw [if_neg h1]
      have hm' : (root, ms) ∈ gs := by
        rcases List.mem_cons.mp hm with he | hmem
        · exfalso
          have : (g.1 : ℕ) = root := by
            rw [show (g : ℕ × List ℕ) = (g.1, g.2) from rfl] at he
            exact ((Prod.mk.injEq _ _ _ _).mp he.symm).1
          exact h1 this
        · exact hmem
      rw [List.mem_cons, ih hnd.2 hm' e, List.mem_cons]
      constructor
      · rintro (he | (⟨hmem, hne⟩ | he))
        · refine Or.inl ⟨Or.inl he, ?_⟩
          rw [he]
          exact h1
        · exact Or.inl ⟨Or.inr hmem, hne⟩
        · exact Or.inr he
      · rintro (⟨(he | hmem), hne⟩ | he)
        · exact Or.inl he
        · exact Or.inr (Or.inl ⟨hmem, hne⟩)
        · exact Or.inr (Or.inr he)

theorem addToGroups_self_mem (gs : List (ℕ × List ℕ)) (root i : ℕ) :
    ∃ ms, (root, ms) ∈ addToGroups gs root i ∧ i ∈ ms := by
  induction gs with
  | nil => exact ⟨[i], List.mem_singleton_self _, List.mem_singleton_self _⟩
  | cons g gs ih =>
    show ∃ ms, (root, ms) ∈ addToGroups (g :: gs) root i ∧ i ∈ ms
    rw [show (g : ℕ × List ℕ) = (g.1, g.2) from rfl, addToGroups]
    by_cases h1 : g.1 = root
    · rw [if_pos h1]
      refine ⟨g.2 ++ [i], ?_, by simp⟩
      rw [h1]
      exact List.mem_cons_self _ _
    · rw [if_neg h1]
      obtain ⟨ms, hmem, hi⟩ := ih
      exact ⟨ms, List.mem_cons_of_mem _ hmem, hi⟩

/-- One `setdefault(root, []).append(i)` step preserves the dictionary
invariant: keys are distinct, each entry holds exactly the processed indices
with that root, every processed index is covered, and every key has a
witnessing processed index. -/
theorem collect_step (f : ℕ → ℕ) (done : List ℕ) (gs : List (ℕ × List ℕ)) (k : ℕ)
    (hnd : (gs.map Prod.fst).Nodup)
    (hmem2 : ∀ e ∈ gs, e.2 = done.filter (fun x => f x = e.1))
    (hkeys : ∀ x ∈ done, f x ∈ gs.map Prod.fst)
    (hwit : ∀ e ∈ gs, ∃ x ∈ done, f x = e.1) :
    ((addToGroups gs (f k) k).map Prod.fst).Nodup ∧
    (∀ e ∈ addToGroups gs (f k) k, e.2 = (done ++ [k]).filter (fun x => f x = e.1)) ∧
    (∀ x ∈ done ++ [k], f x ∈ (addToGroups gs (f k) k).map Prod.fst) ∧
    (∀ e ∈ addToGroups gs (f k) k, ∃ x ∈ done ++ [k], f x = e.1) := by
  have hfilter_ne : ∀ (e1 : ℕ), e1 ≠ f k →
      List.filter (fun x => decide (f x = e1)) [k] = [] := by
    intro e1 hne
    simp only [List.filter_cons, List.filter_nil, decide_eq_true_eq]
    rw [if_neg (fun h => hne h.symm)]
  by_cases hk : f k ∈ gs.map Prod.fst
  · obtain ⟨e0, he0, hfst⟩ := List.mem_map.mp hk
    have he0' : (f k, e0.2) ∈ gs := by
      rw [← hfst]
      exact he0
    have hchar := addToGroups_mem_of_key gs (f k) k e0.2 hnd he0'
    refine ⟨?_, ?_, ?_, ?_⟩
    · rw [addToGroups_keys_of_mem gs (f k) k hk]
      exact hnd
    · intro e he
      rcases (hchar e).mp he with ⟨hold, hne⟩ | hnew
      · rw [hmem2 e hold, List.filter_append, hfilter_ne e.1 hne, List.append_nil]
      · rw [hnew]
        show e0.2 ++ [k] = _
        rw [List.filter_append, hmem2 (f k, e0.2) he0']
        show _ = _ ++ List.filter (fun x => decide (f x = f k)) [k]
        simp
    · intro x hx
      rw [addToGroups_keys_of_mem gs (f k) k hk]
      rcases List.mem_append.mp hx with hxd | hxk
      · exact hkeys x hxd
      · rcases List.mem_singleton.mp hxk with rfl
        exact hk
    · intro e he
      rcases (hchar e).mp he with ⟨hold, _⟩ | hnew
      · obtain ⟨x, hxd, hxe⟩ := hwit e hold
        exact ⟨x, List.mem_append_left _ hxd, hxe⟩
      · refine ⟨k, List.mem_append_right _ (List.mem_singleton_self k), ?_⟩
        rw [hnew]
  · rw [addToGroups_of_not_mem gs (f k) k hk]
    refine ⟨?_, ?_, ?_, ?_⟩
    · rw [List.map_append, List.nodup_append]
      refine ⟨hnd, List.nodup_singleton _, ?_⟩
      intro a ha hak
      rcases List.mem_singleton.mp (by simpa using hak) with rfl
      exact hk ha
    · intro e he
      rcases List.mem_append.mp he with hold | hnew
      · have hne : e.1 ≠ f k := by
          intro h
          exact hk (h ▸ List.mem_map.mpr ⟨e, hold, rfl⟩)
        rw [hmem2 e hold, List.filter_append, hfilter_ne e.1 hne, List.append_nil]
      · rcases List.mem_singleton.mp hnew with rfl
        show [k] = _
        rw [List.filter_append]
        have hdone : List.filter (fun x => decide (f x = f k)) done = [] := by
          rw [List.filter_eq_nil_iff]
          intro x hx hfx
          exact hk ((decide_eq_true_eq.mp hfx) ▸ hkeys x hx)
        rw [hdone, List.nil_append]
        simp
    · intro x hx
      rw [List.map_append]
      rcases List.mem_append.mp hx with hxd | hxk
      · exact List.mem_append_left _ (hkeys x hxd)
      · rcases List.mem_singleton.mp hxk with rfl
        exact List.mem_append_right _ (by simp)
    · intro e he
      rcases List.mem_append.mp he with hold | hnew
      · obtain ⟨x, hxd, hxe⟩ := hwit e hold
        exact ⟨x, List.mem_append_left _ hxd, hxe⟩
      · rcases List.mem_singleton.mp hnew with rfl
        exact ⟨k, List.mem_append_right _ (List.mem_singleton_self k), rfl⟩

/-- The dictionary invariant carried through the whole
`groups.setdefault(root, []).append(i)` loop. -/
theorem collectFold_inv (f : ℕ → ℕ) :
    ∀ (l done : List ℕ) (gs : List (ℕ × List ℕ)),
      (gs.map Prod.fst).Nodup →
      (∀ e ∈ gs, e.2 = done.filter (fun x => f x = e.1)) →
      (∀ x ∈ done, f x ∈ gs.map Prod.fst) →
      (∀ e ∈ gs, ∃ x ∈ done, f x = e.1) →
      (((l.foldl (fun gs i => addToGroups gs (f i) i) gs).map Prod.fst).Nodup ∧
       (∀ e ∈ l.foldl (fun gs i => addToGroups gs (f i) i) gs,
         e.2 = (done ++ l).filter (fun x => f x = e.1)) ∧
       (∀ x ∈ done ++ l,
         f x ∈ (l.foldl (fun gs i => addToGroups gs (f i) i) gs).map Prod.fst) ∧
       (∀ e ∈ l.foldl (fun gs i => addToGroups gs (f i) i) gs,
         ∃ x ∈ done ++ l, f x = e.1)) := by
  intro l
  induction l with
  | nil =>
    intro done gs h1 h2 h3 h4
    rw [List.append_nil]
    exact ⟨h1, h2, h3, h4⟩
  | cons k l ih =>
    intro done gs h1 h2 h3 h4
    obtain ⟨s1, s2, s3, s4⟩ := collect_step f done gs k h1 h2 h3 h4
    have := ih (done ++ [k]) (addToGroups gs (f k) k) s1 s2 s3 s4
    rw [List.append_assoc, List.singleton_append] at this
    exact this

theorem collectGroups_spec (uf : UnionFind) (n : ℕ) :
    ((collectGroups uf n).map Prod.fst).Nodup ∧
    (∀ e ∈ collectGroups uf n,
      e.2 = (List.range n).filter (fun k => uf.find k = e.1)) ∧
    (∀ i, i < n → uf.find i ∈ (collectGroups uf n).map Prod.fst) ∧
    (∀ e ∈ collectGroups uf n, ∃ i, i < n ∧ uf.find i = e.1) := by
  have h := collectFold_inv uf.find (List.range n) [] []
    List.nodup_nil (fun e he => absurd he (List.not_mem_nil e))
    (fun x hx => absurd hx (List.not_mem_nil x))
    (fun e he => absurd he (List.not_mem_nil e))
  rw [List.nil_append] at h
  obtain ⟨h1, h2, h3, h4⟩ := h
  refine ⟨h1, h2, ?_, ?_⟩
  · intro i hi
    exact h3 i (List.mem_range.mpr hi)
  · intro e he
    obtain ⟨x, hx, hxe⟩ := h4 e he
    exact ⟨x, List.mem_range.mp hx, hxe⟩

/-! ### Python `min` over sharpness: first minimal member -/

theorem argmin_fold_cases (ps : List PhotoInfo) :
    ∀ (ms : List ℕ) (m : ℕ),
      (ms.foldl
          (fun best i => if sharpnessOf ps i < sharpnessOf ps best then i else best)
          m) = m ∨
      ((ms.foldl
          (fun best i => if sharpnessOf ps i < sharpnessOf ps best then i else best)
          m) ∈ ms ∧
        sharpnessOf ps
            (ms.foldl
              (fun best i => if sharpnessOf ps i < sharpnessOf ps best then i else best)
              m) <
          sharpnessOf ps m) := by
  intro ms
  induction ms with
  | nil => intro m; exact Or.inl rfl
  | cons b ms ih =>
    intro m
    rw [List.foldl_cons]
    by_cases h : sharpnessOf ps b < sharpnessOf ps m
    · rw [if_pos h]
      rcases ih b with heq | ⟨hmem, hlt⟩
      · rw [heq]
        exact Or.inr ⟨List.mem_cons_self _ _, h⟩
      · exact Or.inr ⟨List.mem_cons_of_mem _ hmem, lt_trans hlt h⟩
    · rw [if_neg h]
      rcases ih m with heq | ⟨hmem, hlt⟩
      · exact Or.inl heq
      · exact Or.inr ⟨List.mem_cons_of_mem _ hmem, hlt⟩

theorem argminSharp_cons_cons (ps : List PhotoInfo) (m b : ℕ) (ms : List ℕ) :
    argminSharp ps (m :: b :: ms) =
      if sharpnessOf ps b < sharpnessOf ps m then argminSharp ps (b :: ms)
      else argminSharp ps (m :: ms) := by
  show List.foldl _ (if sharpnessOf ps b < sharpnessOf ps m then b else m) ms = _
  by_cases h : sharpnessOf ps b < sharpnessOf ps m
  · rw [if_pos h, if_pos h]
    rfl
  · rw [if_neg h, if_neg h]
    rfl

/-- `argminSharp` returns a member of minimal sharpness that precedes (in the
sense of any relation the list is pairwise ordered by) every other member of
the same sharpness: Python's `min` keeps the first minimal element. -/
theorem argminSharp_first (ps : List PhotoInfo) (P : ℕ → ℕ → Prop) :
    ∀ (ms : List ℕ) (m : ℕ), (m :: ms).Pairwise P →
      argminSharp ps (m :: ms) ∈ m :: ms ∧
      (∀ j ∈ m :: ms,
        sharpnessOf ps (argminSharp ps (m :: ms)) ≤ sharpnessOf ps j ∧
        (sharpnessOf ps (argminSharp ps (m :: ms)) = sharpnessOf ps j →
          argminSharp ps (m :: ms) = j ∨ P (argminSharp ps (m :: ms)) j)) := by
  intro ms
  induction ms with
  | nil =>
    intro m _
    refine ⟨List.mem_singleton_self m, ?_⟩
    intro j hj
    rcases List.mem_singleton.mp hj with rfl
    exact ⟨le_rfl, fun _ => Or.inl rfl⟩
  | cons b ms ih =>
    intro m hP
    rw [argminSharp_cons_cons]
    by_cases h : sharpnessOf ps b < sharpnessOf ps m
    · rw [if_pos h]
      obtain ⟨ihmem, ihprop⟩ := ih b (List.pairwise_cons.mp hP).2
      refine ⟨List.mem_cons_of_mem _ ihmem, ?_⟩
      intro j hj
      rcases List.mem_cons.mp hj with rfl | hjtl
      · have hle : sharpnessOf ps (argminSharp ps (b :: ms)) ≤ sharpnessOf ps b :=
          (ihprop b (List.mem_cons_self _ _)).1
        refine ⟨le_of_lt (lt_of_le_of_lt hle h), ?_⟩
        intro heq
        exact absurd heq (ne_of_lt (lt_of_le_of_lt hle h))
      · exact ihprop j hjtl
    · rw [if_neg h]
      have hsub : List.Sublist (m :: ms) (m :: b :: ms) :=
        List.Sublist.cons₂ m (List.sublist_cons_self b ms)
      obtain ⟨ihmem, ihprop⟩ := ih m (hP.sublist hsub)
      refine ⟨?_, ?_⟩
      · rcases List.mem_cons.mp ihmem with heq | hmem
        · rw [heq]; exact List.mem_cons_self _ _
        · exact List.mem_cons_of_mem _ (List.mem_cons_of_mem _ hmem)
      · intro j hj
        rcases List.mem_cons.mp hj with rfl | hjtl
        · exact ihprop j (List.mem_cons_self _ _)
        · rcases List.mem_cons.mp hjtl with rfl | hj2
          · have hbm : sharpnessOf ps m ≤ sharpnessOf ps j := not_lt.mp h
            have hmy : sharpnessOf ps (argminSharp ps (m :: ms)) ≤ sharpnessOf ps m :=
              (ihprop m (List.mem_cons_self _ _)).1
            refine ⟨le_trans hmy hbm, ?_⟩
            intro heq
            rcases argmin_fold_cases ps ms m with hcase | ⟨_, hlt⟩
            · have hym : argminSharp ps (m :: ms) = m := hcase
              right
              rw [hym]
              exact (List.pairwise_cons.mp hP).1 j (List.mem_cons_self _ _)
            · exact absurd heq (ne_of_lt (lt_of_lt_of_le hlt hbm))
          · exact ihprop j (List.mem_cons_of_mem _ hj2)

/-- `argminSharp` depends only on the sharpness of the listed members. -/
theorem argminSharp_congr (ps qs : List PhotoInfo) :
    ∀ (ms : List ℕ) (m : ℕ),
      (∀ i ∈ m :: ms, sharpnessOf ps i = sharpnessOf qs i) →
      argminSharp ps (m :: ms) = argminSharp qs (m :: ms) := by
  intro ms
  induction ms with
  | nil => intro m _; rfl
  | cons b ms ih =>
    intro m hpt
    show (List.foldl _ (if sharpnessOf ps b < sharpnessOf ps m then b else m) ms) =
      (List.foldl _ (if sharpnessOf qs b < sharpnessOf qs m then b else m) ms)
    rw [hpt m (List.mem_cons_self _ _),
      hpt b (List.mem_cons_of_mem _ (List.mem_cons_self _ _))]
    by_cases h : sharpnessOf qs b < sharpnessOf qs m
    · rw [if_pos h]
      exact ih b (fun i hi => by
        rcases List.mem_cons.mp hi with rfl | hi'
        · exact hpt i (List.mem_cons_of_mem _ (List.mem_cons_self _ _))
        · exact hpt i (List.mem_cons_of_mem _ (List.mem_cons_of_mem _ hi')))
    · rw [if_neg h]
      exact ih m (fun i hi => by
        rcases List.mem_cons.mp hi with rfl | hi'
        · exact hpt i (List.mem_cons_self _ _)
        · exact hpt i (List.mem_cons_of_mem _ (List.mem_cons_of_mem _ hi')))

theorem argminSharp_mem (ps : List PhotoInfo) (ms : List ℕ) (h : ms ≠ []) :
    argminSharp ps ms ∈ ms := by
  cases ms with
  | nil => exact absurd rfl h
  | cons m ms =>
    exact (argminSharp_first ps (fun _ _ => True) ms m
      (List.pairwise_of_forall (fun _ _ => trivial))).1

/-! ### Counting the clusters of size at least two -/

theorem countBig_append (l1 l2 : List (ℕ × List ℕ)) :
    countBig (l1 ++ l2) = countBig l1 + countBig l2 := by
  unfold countBig
  rw [List.filter_append, List.length_append]

theorem countBig_take_succ (gs : List (ℕ × List ℕ)) (t : ℕ) (ht : t < gs.length) :
    countBig (gs.take (t + 1)) =
      countBig (gs.take t) +
        (if 2 ≤ (gs.getD t (0, [])).2.length then 1 else 0) := by
  rw [List.take_succ, countBig_append, List.getElem?_eq_getElem ht]
  unfold countBig
  rw [List.getD_eq_getElem gs (0, []) ht]
  by_cases h : 2 ≤ (gs.get ⟨t, ht⟩).2.length
  · have h' : 2 ≤ (gs[t]).2.length := h
    simp [List.filter_cons, h']
  · have h' : ¬ 2 ≤ (gs[t]).2.length := h
    simp [List.filter_cons, h']

theorem countBig_take_le (gs : List (ℕ × List ℕ)) {a b : ℕ} (h : a ≤ b) :
    countBig (gs.take a) ≤ countBig (gs.take b) := by
  rw [show b = a + (b - a) by omega, List.take_add, countBig_append]
  omega

/-- Positionally distinct size-≥2 clusters receive distinct group ids. -/
theorem countBig_take_lt (gs : List (ℕ × List ℕ)) {a b : ℕ} (hab : a < b)
    (ha : a < gs.length) (hbig : 2 ≤ (gs.getD a (0, [])).2.length) :
    countBig (gs.take a) < countBig (gs.take b) := by
  have h1 : countBig (gs.take (a + 1)) = countBig (gs.take a) + 1 := by
    rw [countBig_take_succ gs a ha, if_pos hbig]
  have h2 : countBig (gs.take (a + 1)) ≤ countBig (gs.take b) :=
    countBig_take_le gs hab
  omega

theorem countBig_cons (g : ℕ × List ℕ) (gs : List (ℕ × List ℕ)) :
    countBig (g :: gs) = (if 2 ≤ g.2.length then 1 else 0) + countBig gs := by
  unfold countBig
  rw [List.filter_cons]
  by_cases h : 2 ≤ g.2.length
  · rw [if_pos (decide_eq_true h), if_pos h, List.length_cons]
    omega
  · rw [if_neg (fun hd => h (decide_eq_true_eq.mp hd)), if_neg h]
    omega

theorem assignGroup_small (ps : List PhotoInfo) (g0 : ℕ) (g : ℕ × List ℕ)
    (h : g.2.length < 2) : assignGroup (ps, g0) g = (ps, g0) := by
  unfold assignGroup
  rw [if_pos h]

/-- What one `assignGroup` step does to the photo list: every member of a
size-≥2 cluster gets the group id; the first member of lowest sharpness is
additionally flagged worst with uniqueness 0.3; everything else, including
every field of the other members beyond `duplicate_group`, is untouched. -/
theorem assignGroup_spec (ps : List PhotoInfo) (g0 : ℕ) (g : ℕ × List ℕ)
    (hnd : g.2.Nodup) (hbound : ∀ i ∈ g.2, i < ps.length) (hbig : 2 ≤ g.2.length) :
    (assignGroup (ps, g0) g).2 = g0 + 1 ∧
    (assignGroup (ps, g0) g).1.length = ps.length ∧
    (∀ i, i ∉ g.2 →
      (assignGroup (ps, g0) g).1.getD i default = ps.getD i default) ∧
    (∀ i ∈ g.2,
      ((assignGroup (ps, g0) g).1.getD i default).duplicate_group = (g0 : ℤ) ∧
      ((assignGroup (ps, g0) g).1.getD i default).is_worst_duplicate =
        (if i = argminSharp ps g.2 then true
         else (ps.getD i default).is_worst_duplicate) ∧
      ((assignGroup (ps, g0) g).1.getD i default).uniqueness_score =
        (if i = argminSharp ps g.2 then 0.3
         else (ps.getD i default).uniqueness_score) ∧
      dupFrameKey ((assignGroup (ps, g0) g).1.getD i default) =
        dupFrameKey (ps.getD i default)) := by
  have hne : g.2 ≠ [] := by
    intro h
    rw [h] at hbig
    simp at hbig
  obtain ⟨hlen1, hout1, hin1⟩ :=
    foldl_modifyIdx_writes
      (fun p => { p with duplicate_group := (g0 : ℤ) }) g.2 ps hnd
  set ps1 := g.2.foldl
    (fun ps idx =>
      modifyIdx ps idx (fun p => { p with duplicate_group := (g0 : ℤ) })) ps
    with hps1
  have hsharp : ∀ i ∈ g.2, sharpnessOf ps1 i = sharpnessOf ps i := by
    intro i hi
    unfold sharpnessOf
    rw [hin1 i hi (hbound i hi)]
  have hargmin : argminSharp ps1 g.2 = argminSharp ps g.2 := by
    rcases hE : g.2 with _ | ⟨m, ms⟩
    · rfl
    · exact argminSharp_congr ps1 ps ms m (fun i hi => hsharp i (hE ▸ hi))
  have hbestmem : argminSharp ps1 g.2 ∈ g.2 := argminSharp_mem ps1 g.2 hne
  have hbestlen : argminSharp ps1 g.2 < ps1.length := by
    rw [hlen1]
    exact hbound _ hbestmem
  have hstep : assignGroup (ps, g0) g =
      (modifyIdx ps1 (argminSharp ps1 g.2)
        (fun p => { p with is_worst_duplicate := true, uniqueness_score := 0.3 }),
       g0 + 1) := by
    unfold assignGroup
    rw [if_neg (not_lt.mpr hbig)]
  rw [hstep]
  refine ⟨rfl, ?_, ?_, ?_⟩
  · rw [modifyIdx_length, hlen1]
  · intro i hi
    rw [getD_modifyIdx_ne _ _ _ i default (fun h => hi (h ▸ hbestmem)), hout1 i hi]
  · intro i hi
    by_cases hib : i = argminSharp ps g.2
    · have hib1 : i = argminSharp ps1 g.2 := by rw [hargmin]; exact hib
      rw [hib1]
      rw [getD_modifyIdx_self _ _ _ default hbestlen,
        hin1 _ (hib1 ▸ hi) (hbound _ (hib1 ▸ hi))]
      exact ⟨rfl, by rw [if_pos hargmin], by rw [if_pos hargmin], rfl⟩
    · have hib1 : i ≠ argminSharp ps1 g.2 := by rwa [hargmin]
      rw [getD_modifyIdx_ne _ _ _ i default hib1, hin1 i hi (hbound i hi)]
      exact ⟨rfl, by rw [if_neg hib], by rw [if_neg hib], rfl⟩

/-- What the whole `assignGroup` fold does: clusters of size < 2 are skipped;
the `t`-th size-≥2 cluster gets group id `g0` plus the number of earlier
size-≥2 clusters; in it, the first member of lowest sharpness is flagged
worst with uniqueness 0.3 and every member's other fields are kept; indices
in no size-≥2 cluster are untouched. -/
theorem assignGroups_fold :
    ∀ (gs : List (ℕ × List ℕ)) (ps : List PhotoInfo) (g0 : ℕ),
      gs.Pairwise (fun g1 g2 => List.Disjoint g1.2 g2.2) →
      (∀ g ∈ gs, g.2.Nodup) →
      (∀ g ∈ gs, ∀ i ∈ g.2, i < ps.length) →
      ((gs.foldl assignGroup (ps, g0)).1.length = ps.length ∧
       (gs.foldl assignGroup (ps, g0)).2 = g0 + countBig gs ∧
       (∀ i, (∀ g ∈ gs, 2 ≤ g.2.length → i ∉ g.2) →
         (gs.foldl assignGroup (ps, g0)).1.getD i default = ps.getD i default) ∧
       (∀ t, t < gs.length → 2 ≤ (gs.getD t (0, [])).2.length →
         ∀ i ∈ (gs.getD t (0, [])).2,
           ((gs.foldl assignGroup (ps, g0)).1.getD i default).duplicate_group =
             ((g0 + countBig (gs.take t) : ℕ) : ℤ) ∧
           ((gs.foldl assignGroup (ps, g0)).1.getD i default).is_worst_duplicate =
             (if i = argminSharp ps (gs.getD t (0, [])).2 then true
              else (ps.getD i default).is_worst_duplicate) ∧
           ((gs.foldl assignGroup (ps, g0)).1.getD i default).uniqueness_score =
             (if i = argminSharp ps (gs.getD t (0, [])).2 then 0.3
              else (ps.getD i default).uniqueness_score) ∧
           dupFrameKey ((gs.foldl assignGroup (ps, g0)).1.getD i default) =
             dupFrameKey (ps.getD i default))) := by
  intro gs
  induction gs with
  | nil =>
    intro ps g0 _ _ _
    exact ⟨rfl, rfl, fun i _ => rfl, fun t ht => by simp at ht⟩
  | cons g gs' ih =>
    intro ps g0 hdisj hnd hb
    rcases List.pairwise_cons.mp hdisj with ⟨hdr, hdisj'⟩
    have hfold : (g :: gs').foldl assignGroup (ps, g0) =
        gs'.foldl assignGroup (assignGroup (ps, g0) g) := rfl
    by_cases hsmall : g.2.length < 2
    · rw [hfold, assignGroup_small ps g0 g hsmall]
      obtain ⟨ihlen, ihcnt, ihout, ihin⟩ := ih ps g0 hdisj'
        (fun g' hg' => hnd g' (List.mem_cons_of_mem _ hg'))
        (fun g' hg' => hb g' (List.mem_cons_of_mem _ hg'))
      have hcnt : countBig (g :: gs') = countBig gs' := by
        rw [countBig_cons, if_neg (not_le.mpr hsmall)]
        omega
      refine ⟨ihlen, by rw [ihcnt, hcnt], ?_, ?_⟩
      · intro i hi
        exact ihout i (fun g' hg' => hi g' (List.mem_cons_of_mem _ hg'))
      · intro t ht hbig i hi
        cases t with
        | zero =>
          rw [List.getD_cons_zero] at hbig
          exact absurd hbig (not_le.mpr hsmall)
        | succ t' =>
          rw [List.getD_cons_succ] at hbig hi ⊢
          have ht' : t' < gs'.length := by simpa using ht
          obtain ⟨e1, e2, e3, e4⟩ := ihin t' ht' hbig i hi
          refine ⟨?_, e2, e3, e4⟩
          rw [e1, List.take_succ_cons, countBig_cons, if_neg (not_le.mpr hsmall)]
          norm_num
    · have hgbig : 2 ≤ g.2.length := not_lt.mp hsmall
      obtain ⟨hg1, hlen1, hout1, hin1⟩ :=
        assignGroup_spec ps g0 g (hnd g (List.mem_cons_self _ _))
          (hb g (List.mem_cons_self _ _)) hgbig
      have hpair : assignGroup (ps, g0) g =
          ((assignGroup (ps, g0) g).1, g0 + 1) := by
        rw [← hg1]
      set ps1 := (assignGroup (ps, g0) g).1 with hps1
      obtain ⟨ihlen, ihcnt, ihout, ihin⟩ := ih ps1 (g0 + 1) hdisj'
        (fun g' hg' => hnd g' (List.mem_cons_of_mem _ hg'))
        (fun g' hg' i hi => by rw [hlen1]; exact hb g' (List.mem_cons_of_mem _ hg') i hi)
      rw [hfold, hpair]
      have hsharp1 : ∀ i, i ∉ g.2 → sharpnessOf ps1 i = sharpnessOf ps i := by
        intro i hi
        unfold sharpnessOf
        rw [hout1 i hi]
      refine ⟨by rw [ihlen, hlen1], ?_, ?_, ?_⟩
      · rw [ihcnt, countBig_cons, if_pos hgbig]
        omega
      · intro i hi
        rw [ihout i (fun g' hg' => hi g' (List.mem_cons_of_mem _ hg')),
          hout1 i (hi g (List.mem_cons_self _ _) hgbig)]
      · intro t ht hbig i hi
        cases t with
        | zero =>
          rw [List.getD_cons_zero] at hi
          have hinot : ∀ g' ∈ gs', 2 ≤ g'.2.length → i ∉ g'.2 := by
            intro g' hg' _ hmem
            exact hdr g' hg' hi hmem
          rw [ihout i hinot]
          obtain ⟨e1, e2, e3, e4⟩ := hin1 i hi
          rw [List.getD_cons_zero]
          refine ⟨?_, e2, e3, e4⟩
          rw [e1]
          norm_num [countBig]
        | succ t' =>
          rw [List.getD_cons_succ] at hbig hi ⊢
          have ht' : t' < gs'.length := by simpa using ht
          obtain ⟨e1, e2, e3, e4⟩ := ihin t' ht' hbig i hi
          have hrt : gs'.getD t' (0, []) ∈ gs' := by
            rw [List.getD_eq_getElem _ _ ht']
            exact List.getElem_mem _
          have hir : i ∉ g.2 := fun hmem => hdr _ hrt hmem hi
          have hps1i : ps1.getD i default = ps.getD i default := hout1 i hir
          have hargeq : argminSharp ps1 (gs'.getD t' (0, [])).2 =
              argminSharp ps (gs'.getD t' (0, [])).2 := by
            rcases hE : (gs'.getD t' (0, [])).2 with _ | ⟨m, ms⟩
            · rfl
            · refine argminSharp_congr ps1 ps ms m ?_
              intro x hx
              refine hsharp1 x ?_
              intro hmem
              exact hdr _ hrt hmem (by rw [hE]; exact hx)
          rw [hargeq] at e2 e3
          rw [hps1i] at e2 e3
          refine ⟨?_, e2, e3, by rw [e4, hps1i]⟩
          rw [e1, List.take_succ_cons, countBig_cons, if_pos hgbig]
          norm_num
          omega

/-! ### Assembling C4 -/

theorem mem_validIdx (photos : List PhotoInfo) (i : ℕ) :
    i ∈ validIdx photos ↔ i < photos.length ∧ dhashOf photos i ≠ none := by
  unfold validIdx
  simp [List.mem_filter, List.mem_range, Option.isSome_iff_ne_none]

theorem validIdx_pairwise_lt (photos : List PhotoInfo) :
    (validIdx photos).Pairwise (· < ·) :=
  (List.pairwise_lt_range _).sublist (List.filter_sublist _)

theorem hammingOf_comm (photos : List PhotoInfo) (a b : ℕ) :
    hammingOf photos a b = hammingOf photos b a := by
  unfold hammingOf hamming_distance
  rw [Nat.xor_comm]

theorem finalUF_inv (photos : List PhotoInfo) :
    UFInv photos.length
      (unionPairs photos (UnionFind.init photos.length) (validIdx photos)) :=
  (unionPairs_spec photos photos.length (validIdx photos)
    (UnionFind.init photos.length) (init_inv _)
    (fun a ha => ((mem_validIdx photos a).mp ha).1)
    (validIdx_pairwise_lt photos)).1

/-- Any two distinct valid photos within the Hamming threshold end in the
same union-find class. -/
theorem finalUF_link (photos : List PhotoInfo) (i j : ℕ)
    (hi : i < photos.length) (hj : j < photos.length) (hne : i ≠ j)
    (hdi : dhashOf photos i ≠ none) (hdj : dhashOf photos j ≠ none)
    (hham : hammingOf photos i j ≤ DHASH_THRESHOLD) :
    rootN (unionPairs photos (UnionFind.init photos.length)
        (validIdx photos)).parent photos.length i =
      rootN (unionPairs photos (UnionFind.init photos.length)
        (validIdx photos)).parent photos.length j := by
  have spec := unionPairs_spec photos photos.length (validIdx photos)
    (UnionFind.init photos.length) (init_inv _)
    (fun a ha => ((mem_validIdx photos a).mp ha).1)
    (validIdx_pairwise_lt photos)
  have hiv : i ∈ validIdx photos := (mem_validIdx photos i).mpr ⟨hi, hdi⟩
  have hjv : j ∈ validIdx photos := (mem_validIdx photos j).mpr ⟨hj, hdj⟩
  rcases lt_or_gt_of_ne hne with hlt | hgt
  · exact spec.2.2.1 i j hiv hjv hlt hham
  · refine (spec.2.2.1 j i hjv hiv hgt ?_).symm
    rw [hammingOf_comm photos j i]
    exact hham

/-- A photo with no dhash, or with no distinct valid photo within the
threshold, keeps a singleton union-find class. -/
theorem finalUF_iso (photos : List PhotoInfo) (i : ℕ) (hi : i < photos.length)
    (hcond : dhashOf photos i = none ∨
      ∀ j, j < photos.length → j ≠ i → dhashOf photos j ≠ none →
        ¬ hammingOf photos i j ≤ DHASH_THRESHOLD) :
    rootN (unionPairs photos (UnionFind.init photos.length)
        (validIdx photos)).parent photos.length i = i ∧
    (∀ j, j < photos.length → j ≠ i →
      rootN (unionPairs photos (UnionFind.init photos.length)
        (validIdx photos)).parent photos.length j ≠ i) := by
  have spec := unionPairs_spec photos photos.length (validIdx photos)
    (UnionFind.init photos.length) (init_inv _)
    (fun a ha => ((mem_validIdx photos a).mp ha).1)
    (validIdx_pairwise_lt photos)
  refine spec.2.2.2 i hi (init_root _ i hi)
    (fun j hj hne => by rw [init_root _ j hj]; exact hne) ?_
  intro a b ha hb hab hham
  rcases hcond with hnone | hpart
  · constructor
    · intro rfl1
      exact ((mem_validIdx photos a).mp ha).2 (rfl1 ▸ hnone)
    · intro rfl1
      exact ((mem_validIdx photos b).mp hb).2 (rfl1 ▸ hnone)
  · constructor
    · intro rfl1
      refine hpart b ((mem_validIdx photos b).mp hb).1
        (fun h => hab (rfl1.trans h.symm)) ((mem_validIdx photos b).mp hb).2 ?_
      rw [← rfl1]
      exact hham
    · intro rfl1
      refine hpart a ((mem_validIdx photos a).mp ha).1
        (fun h => hab (h.trans rfl1.symm)) ((mem_validIdx photos a).mp ha).2 ?_
      rw [hammingOf_comm, ← rfl1]
      exact hham

/-- The group dictionary, read through the union-find invariant: each entry
holds exactly the indices below `n` whose class root equals the entry's key,
members are listed in increasing order, every index is covered by exactly one
positional entry keyed by its root. -/
theorem groups_spec (uf : UnionFind) (n : ℕ) (hinv : UFInv n uf) :
    (∀ e ∈ collectGroups uf n, ∀ k,
      (k ∈ e.2 ↔ k < n ∧ rootN uf.parent n k = e.1)) ∧
    (∀ e ∈ collectGroups uf n, e.2.Pairwise (· < ·)) ∧
    (∀ i, i < n → ∃ t, t < (collectGroups uf n).length ∧
      ((collectGroups uf n).getD t (0, [])).1 = rootN uf.parent n i ∧
      i ∈ ((collectGroups uf n).getD t (0, [])).2) ∧
    (∀ t1 t2, t1 < (collectGroups uf n).length →
      t2 < (collectGroups uf n).length → t1 ≠ t2 →
      ∀ k, k ∈ ((collectGroups uf n).getD t1 (0, [])).2 →
        k ∉ ((collectGroups uf n).getD t2 (0, [])).2) := by
  obtain ⟨hnd, hmem, hcov, _⟩ := collectGroups_spec uf n
  have part1 : ∀ e ∈ collectGroups uf n, ∀ k,
      (k ∈ e.2 ↔ k < n ∧ rootN uf.parent n k = e.1) := by
    intro e he k
    rw [hmem e he]
    simp only [List.mem_filter, List.mem_range, decide_eq_true_eq]
    constructor
    · intro ⟨hk, hf⟩
      refine ⟨hk, ?_⟩
      rw [← find_eq_rootN n uf hinv k hk]
      exact hf
    · intro ⟨hk, hf⟩
      refine ⟨hk, ?_⟩
      rw [find_eq_rootN n uf hinv k hk]
      exact hf
  refine ⟨part1, ?_, ?_, ?_⟩
  · intro e he
    rw [hmem e he]
    exact (List.pairwise_lt_range _).sublist (List.filter_sublist _)
  · intro i hi
    obtain ⟨e, he, he1⟩ := List.mem_map.mp (hcov i hi)
    obtain ⟨t, ht, hEq⟩ := List.mem_iff_getElem.mp he
    have hgetD : (collectGroups uf n).getD t (0, []) = e := by
      rw [List.getD_eq_getElem _ _ ht]
      exact hEq
    refine ⟨t, ht, ?_, ?_⟩
    · rw [hgetD, he1, find_eq_rootN n uf hinv i hi]
    · rw [hgetD]
      exact (part1 e he i).mpr ⟨hi, by rw [find_eq_rootN n uf hinv i hi] at he1; exact he1.symm⟩
  · intro t1 t2 ht1 ht2 htne k hk1 hk2
    have hm1 : (collectGroups uf n).getD t1 (0, []) ∈ collectGroups uf n := by
      rw [List.getD_eq_getElem _ _ ht1]
      exact List.getElem_mem _
    have hm2 : (collectGroups uf n).getD t2 (0, []) ∈ collectGroups uf n := by
      rw [List.getD_eq_getElem _ _ ht2]
      exact List.getElem_mem _
    have hr1 := ((part1 _ hm1 k).mp hk1).2
    have hr2 := ((part1 _ hm2 k).mp hk2).2
    have hl1 : t1 < ((collectGroups uf n).map Prod.fst).length := by simpa using ht1
    have hl2 : t2 < ((collectGroups uf n).map Prod.fst).length := by simpa using ht2
    have hkeyeq : ((collectGroups uf n).map Prod.fst)[t1] =
        ((collectGroups uf n).map Prod.fst)[t2] := by
      rw [List.getElem_map, List.getElem_map,
        ← List.getD_eq_getElem _ (0, []) ht1, ← List.getD_eq_getElem _ (0, []) ht2,
        ← hr1, ← hr2]
    exact htne (hnd.getElem_inj_iff.mp hkeyeq)

/-- On records whose duplicate fields are at their defaults, the identity
result satisfies the C4 specification when the function early-returns. -/
theorem DupSpec_untouched (photos : List PhotoInfo)
    (H : ∀ p ∈ photos, p.duplicate_group = -1 ∧ p.is_worst_duplicate = false ∧
      p.uniqueness_score = 1.0)
    (hsmall : photos.length < 2 ∨ (validIdx photos).length < 2) :
    DupSpec photos photos := by
  refine ⟨?_, ?_, ?_⟩
  · intro i j k hi hj hk hij hjk hdi hdj hdk hham1 hham2
    exfalso
    rcases hsmall with hs | hs
    · omega
    · have hiv : i ∈ validIdx photos := (mem_validIdx photos i).mpr ⟨hi, hdi⟩
      have hjv : j ∈ validIdx photos := (mem_validIdx photos j).mpr ⟨hj, hdj⟩
      exact absurd (two_le_length_of_mem_ne hiv hjv hij) (not_le.mpr hs)
  · intro i hi hge
    exfalso
    have := (H (photos.getD i default) (getD_mem_of_lt photos default hi)).1
    rw [this] at hge
    norm_num at hge
  · intro i hi _
    exact ⟨rfl, (H (photos.getD i default) (getD_mem_of_lt photos default hi)).1⟩

/-- C4: `find_duplicate_groups` clusters photos transitively by the
Hamming-distance-≤-10 relation on dhashes: photos linked through a common
photo share one non-negative `duplicate_group` id; in every assigned cluster
(necessarily of size ≥ 2) exactly the first member of lowest raw sharpness is
flagged `is_worst_duplicate` with `uniqueness_score` 0.3 while the other
members keep their default 1.0; photos with an empty dhash or with no
distinct valid photo within the threshold keep `duplicate_group = -1` and are
returned untouched. -/
theorem c4_find_duplicate_groups (photos : List PhotoInfo)
    (H : ∀ p ∈ photos, p.duplicate_group = -1 ∧ p.is_worst_duplicate = false ∧
      p.uniqueness_score = 1.0) :
    DupSpec photos (find_duplicate_groups photos) := by
  by_cases h1 : photos.length < 2
  · have hout : find_duplicate_groups photos = photos := by
      unfold find_duplicate_groups
      rw [if_pos h1]
    rw [hout]
    exact DupSpec_untouched photos H (Or.inl h1)
  by_cases h2 : (validIdx photos).length < 2
  · have hout : find_duplicate_groups photos = photos := by
      unfold find_duplicate_groups
      rw [if_neg h1, if_pos h2]
    rw [hout]
    exact DupSpec_untouched photos H (Or.inr h2)
  have hout : find_duplicate_groups photos =
      ((collectGroups (unionPairs photos (UnionFind.init photos.length)
          (validIdx photos)) photos.length).foldl assignGroup (photos, 0)).1 := by
    unfold find_duplicate_groups
    rw [if_neg h1, if_neg h2]
  rw [hout]
  set n := photos.length with hn
  set ufF := unionPairs photos (UnionFind.init n) (validIdx photos) with hufF
  set gps := collectGroups ufF n with hgps
  have hinv : UFInv n ufF := finalUF_inv photos
  obtain ⟨gm, gpw, gcov, gdisj⟩ := groups_spec ufF n hinv
  have hmemlt : ∀ g ∈ gps, ∀ i ∈ g.2, i < photos.length := by
    intro g hg i hi
    exact ((gm g hg i).mp hi).1
  have hnd_g : ∀ g ∈ gps, g.2.Nodup := fun g hg => (gpw g hg).imp ne_of_lt
  have hdisj_g : gps.Pairwise (fun g1 g2 => List.Disjoint g1.2 g2.2) := by
    rw [List.pairwise_iff_getElem]
    intro a b ha hb hab
    intro x hxa hxb
    refine gdisj a b ha hb (Nat.ne_of_lt hab) x ?_ ?_
    · rw [List.getD_eq_getElem _ (0, []) ha]
      exact hxa
    · rw [List.getD_eq_getElem _ (0, []) hb]
      exact hxb
  obtain ⟨flen, _, fout, fpos⟩ := assignGroups_fold gps photos 0 hdisj_g hnd_g hmemlt
  set out := (gps.foldl assignGroup (photos, 0)).1 with hout2
  have hval : ∀ t, t < gps.length → 2 ≤ (gps.getD t (0, [])).2.length →
      ∀ i ∈ (gps.getD t (0, [])).2,
        (out.getD i default).duplicate_group = (countBig (gps.take t) : ℤ) := by
    intro t ht hbig i hi
    have hv := (fpos t ht hbig i hi).1
    rw [hv]
    norm_num
  have hunt : ∀ i,
      (∀ t, t < gps.length → 2 ≤ (gps.getD t (0, [])).2.length →
        i ∉ (gps.getD t (0, [])).2) →
      out.getD i default = photos.getD i default := by
    intro i hnot
    refine fout i ?_
    intro g hg hbig hmem
    obtain ⟨t, ht, hEq⟩ := List.mem_iff_getElem.mp hg
    refine hnot t ht ?_ ?_
    · rw [List.getD_eq_getElem _ (0, []) ht, hEq]
      exact hbig
    · rw [List.getD_eq_getElem _ (0, []) ht, hEq]
      exact hmem
  refine ⟨?_, ?_, ?_⟩
  · intro i j k hi hj hk hij hjk hdi hdj hdk hham1 hham2
    have rij : rootN ufF.parent n i = rootN ufF.parent n j :=
      finalUF_link photos i j hi hj hij hdi hdj hham1
    have rjk : rootN ufF.parent n j = rootN ufF.parent n k :=
      finalUF_link photos j k hj hk hjk hdj hdk hham2
    obtain ⟨t, ht, hkey, hmem⟩ := gcov i hi
    have heg : gps.getD t (0, []) ∈ gps := by
      rw [List.getD_eq_getElem _ (0, []) ht]
      exact List.getElem_mem _
    have hjmem : j ∈ (gps.getD t (0, [])).2 := by
      refine (gm _ heg j).mpr ⟨hj, ?_⟩
      rw [hkey]
      exact rij.symm
    have hkmem : k ∈ (gps.getD t (0, [])).2 := by
      refine (gm _ heg k).mpr ⟨hk, ?_⟩
      rw [hkey]
      exact (rij.trans rjk).symm
    have hbig : 2 ≤ (gps.getD t (0, [])).2.length :=
      two_le_length_of_mem_ne hmem hjmem hij
    exact ⟨countBig (gps.take t), hval t ht hbig i hmem,
      hval t ht hbig j hjmem, hval t ht hbig k hkmem⟩
  · intro i hi hge
    by_cases hb : ∃ t, t < gps.length ∧ 2 ≤ (gps.getD t (0, [])).2.length ∧
        i ∈ (gps.getD t (0, [])).2
    · obtain ⟨t, ht, hbig, hmem⟩ := hb
      have heg : gps.getD t (0, []) ∈ gps := by
        rw [List.getD_eq_getElem _ (0, []) ht]
        exact List.getElem_mem _
      have hvi := hval t ht hbig i hmem
      have hne_nil : (gps.getD t (0, [])).2 ≠ [] := by
        intro h
        rw [h] at hbig
        simp at hbig
      have Hi := H (photos.getD i default) (getD_mem_of_lt photos default hi)
      have hsame : ∀ j, j < n →
          (out.getD j default).duplicate_group =
            (out.getD i default).duplicate_group →
          j ∈ (gps.getD t (0, [])).2 := by
        intro j hjn hjeq
        by_cases hbj : ∃ s, s < gps.length ∧ 2 ≤ (gps.getD s (0, [])).2.length ∧
            j ∈ (gps.getD s (0, [])).2
        · obtain ⟨s, hs, hsbig, hsmem⟩ := hbj
          have hvj := hval s hs hsbig j hsmem
          have hts : t = s := by
            rw [hvj, hvi] at hjeq
            by_contra hts
            rcases Nat.lt_or_ge t s with hlt | hge2
            · have := countBig_take_lt gps hlt ht hbig
              omega
            · have hlt2 : s < t := by omega
              have := countBig_take_lt gps hlt2 hs hsbig
              omega
          rw [← hts] at hsmem
          exact hsmem
        · exfalso
          have hu : out.getD j default = photos.getD j default := by
            refine hunt j ?_
            intro s hs hsbig hsmem
            exact hbj ⟨s, hs, hsbig, hsmem⟩
          rw [hu, (H _ (getD_mem_of_lt photos default hjn)).1, hvi] at hjeq
          omega
      refine ⟨?_, ?_, ?_⟩
      · obtain ⟨j, hjm, hjne⟩ := exists_ne_mem (hnd_g _ heg) hbig hmem
        refine ⟨j, ((gm _ heg j).mp hjm).1, hjne, ?_⟩
        rw [hval t ht hbig j hjm, hvi]
      · obtain ⟨_, e2, e3, _⟩ := fpos t ht hbig i hmem
        by_cases hia : i = argminSharp photos (gps.getD t (0, [])).2
        · rw [e3, if_pos hia, e2, if_pos hia]
          norm_num
        · rw [e3, if_neg hia, e2, if_neg hia, Hi.2.1, Hi.2.2]
          norm_num
      · obtain ⟨m0, ms, hE2⟩ : ∃ m0 ms, (gps.getD t (0, [])).2 = m0 :: ms := by
          rcases hE0 : (gps.getD t (0, [])).2 with _ | ⟨m0, ms⟩
          · rw [hE0] at hbig
            simp at hbig
          · exact ⟨m0, ms, rfl⟩
        have hpw : ((gps.getD t (0, [])).2).Pairwise (· < ·) := gpw _ heg
        obtain ⟨hargmem, hargprop⟩ :=
          argminSharp_first photos (· < ·) ms m0 (hE2 ▸ hpw)
        obtain ⟨_, e2, _, _⟩ := fpos t ht hbig i hmem
        constructor
        · intro hworst j hjn hjeq
          have hjm : j ∈ (gps.getD t (0, [])).2 := hsame j hjn hjeq
          have hia : i = argminSharp photos (gps.getD t (0, [])).2 := by
            by_contra hia
            rw [e2, if_neg hia, Hi.2.1] at hworst
            exact Bool.false_ne_true hworst
          rw [hE2] at hia
          have hprop := hargprop j (hE2 ▸ hjm)
          rw [← hia] at hprop
          refine ⟨hprop.1, ?_⟩
          intro heq
          rcases hprop.2 heq with h | h
          · exact le_of_eq h
          · exact le_of_lt h
        · intro hP
          have hwm : argminSharp photos (gps.getD t (0, [])).2 ∈
              (gps.getD t (0, [])).2 :=
            argminSharp_mem photos _ hne_nil
          have hwn : argminSharp photos (gps.getD t (0, [])).2 < n :=
            ((gm _ heg _).mp hwm).1
          have hgw : (out.getD (argminSharp photos (gps.getD t (0, [])).2)
                default).duplicate_group =
              (out.getD i default).duplicate_group := by
            rw [hval t ht hbig _ hwm, hvi]
          have h1 := hP _ hwn hgw
          have hprop := hargprop i (hE2 ▸ hmem)
          rw [← hE2] at hprop
          have heqs : sharpnessOf photos i =
              sharpnessOf photos (argminSharp photos (gps.getD t (0, [])).2) :=
            le_antisymm h1.1 hprop.1
          have hle1 : i ≤ argminSharp photos (gps.getD t (0, [])).2 := h1.2 heqs
          have hcase := hprop.2 heqs.symm
          have hia : i = argminSharp photos (gps.getD t (0, [])).2 := by
            rcases hcase with h | h
            · exact h.symm
            · omega
          rw [e2, if_pos hia]
    · exfalso
      have hu : out.getD i default = photos.getD i default := by
        refine hunt i ?_
        intro t ht hbig hmem
        exact hb ⟨t, ht, hbig, hmem⟩
      rw [hu, (H _ (getD_mem_of_lt photos default hi)).1] at hge
      norm_num at hge
  · intro i hi hcond
    obtain ⟨hroot, hsing⟩ := finalUF_iso photos i hi hcond
    have hnot : ∀ t, t < gps.length → 2 ≤ (gps.getD t (0, [])).2.length →
        i ∉ (gps.getD t (0, [])).2 := by
      intro t ht hbig hmem
      have heg : gps.getD t (0, []) ∈ gps := by
        rw [List.getD_eq_getElem _ (0, []) ht]
        exact List.getElem_mem _
      have hkey : (gps.getD t (0, [])).1 = i := by
        have hmi := ((gm _ heg i).mp hmem).2
        rw [hroot] at hmi
        exact hmi.symm
      obtain ⟨j, hjm, hjne⟩ := exists_ne_mem (hnd_g _ heg) hbig hmem
      have hjp := (gm _ heg j).mp hjm
      refine hsing j hjp.1 hjne ?_
      rw [hjp.2]
      exact hkey
    have hu : out.getD i default = photos.getD i default := hunt i hnot
    exact ⟨hu, by rw [hu]; exact (H _ (getD_mem_of_lt photos default hi)).1⟩

theorem wDupPhotos_defaults : ∀ p ∈ wDupPhotos,
    p.duplicate_group = -1 ∧ p.is_worst_duplicate = false ∧
      p.uniqueness_score = 1.0 := by
  intro p hp
  fin_cases hp <;> exact ⟨rfl, rfl, rfl⟩

theorem c4_witness :
    (∀ p ∈ wDupPhotos,
      p.duplicate_group = -1 ∧ p.is_worst_duplicate = false ∧
        p.uniqueness_score = 1.0) ∧
    DupSpec wDupPhotos (find_duplicate_groups wDupPhotos) :=
  ⟨wDupPhotos_defaults, c4_find_duplicate_groups wDupPhotos wDupPhotos_defaults⟩

end PhotoPipe
